import Mathlib

/-!
Verification model of the Agent Orchestration and Sandboxed Execution Core
of `smart-review-v2.js` (classes `SecurityUtils`, `AgentSandbox`,
`ResultCache`, `ParallelExecutor`, and the `Config` constants from
`smart-review-config.js`).

Strings are modelled as `List Char`.  JavaScript regular-expression
operations are modelled by explicit deterministic scanners that mirror the
concrete patterns appearing in the source (all of which are backtracking
free or have a uniquely determined match, as noted at each definition).
Effectful calls (process spawning, the external agent invocation) are
modelled by explicit oracle parameters; thrown JavaScript exceptions are
modelled with `Except`.
-/

namespace SmartReview

/-- Characters matched by the JavaScript regex class `\s`
(whitespace, including the Unicode space characters). -/
def isWsChar (c : Char) : Bool :=
  c = ' ' || c = '\t' || c = '\n' || c = '\r' || c.toNat = 11 || c.toNat = 12 ||
  c.toNat = 160 || c.toNat = 0x1680 || (0x2000 ≤ c.toNat && c.toNat ≤ 0x200a) ||
  c.toNat = 0x2028 || c.toNat = 0x2029 || c.toNat = 0x202f || c.toNat = 0x205f ||
  c.toNat = 0x3000 || c.toNat = 0xfeff

/-- Characters matched by the JavaScript regex class `\w`. -/
def isWordChar (c : Char) : Bool :=
  ('a' ≤ c && c ≤ 'z') || ('A' ≤ c && c ≤ 'Z') || ('0' ≤ c && c ≤ '9') || c = '_'

/-- Substring test: does `needle` occur contiguously in `hay`?
Models JavaScript `String.includes` / an unanchored regex literal. -/
def containsSub (needle : List Char) : List Char → Bool
  | [] => needle.isEmpty
  | c :: rest => needle.isPrefixOf (c :: rest) || containsSub needle rest

/-- `SecurityUtils.escapeHtml`, one character:
`{'&': '&amp;', '<': '&lt;', '>': '&gt;', '"': '&quot;', "'": '&#39;'}`. -/
def escapeChar (c : Char) : List Char :=
  if c = '&' then "&amp;".data
  else if c = '<' then "&lt;".data
  else if c = '>' then "&gt;".data
  else if c.toNat = 34 then "&quot;".data
  else if c.toNat = 39 then "&#39;".data
  else [c]

/-- `SecurityUtils.escapeHtml`: `text.replace(/[&<>"']/g, ...)`. -/
def escapeHtml : List Char → List Char
  | [] => []
  | c :: rest => escapeChar c ++ escapeHtml rest

/-- The five HTML-special characters replaced by `escapeHtml`. -/
def isHtmlSpecial (c : Char) : Bool :=
  c = '&' || c = '<' || c = '>' || c.toNat = 34 || c.toNat = 39

/-- Does the string contain an HTML-special character? -/
def hasHtmlSpecial (s : List Char) : Bool := s.any isHtmlSpecial

/-- Left-to-right global regex replacement (`String.replace` with the `g`
flag): `tryM s` returns the rest of the string after a match starting at
the head of `s`, or `none`.  Every pattern used in the source consumes at
least one character, so fuel `s.length + 1` suffices. -/
def replaceScan (tryM : List Char → Option (List Char)) (repl : List Char) :
    Nat → List Char → List Char
  | 0, s => s
  | _ + 1, [] => []
  | fuel + 1, c :: rest =>
    match tryM (c :: rest) with
    | some after => repl ++ replaceScan tryM repl fuel after
    | none => c :: replaceScan tryM repl fuel rest

/-- Global replacement over the whole string. -/
def replaceAll (tryM : List Char → Option (List Char)) (repl : List Char)
    (s : List Char) : List Char :=
  replaceScan tryM repl (s.length + 1) s

/-- Drop a case-sensitive literal from the front of `s`. -/
def litDrop (lit : List Char) (s : List Char) : Option (List Char) :=
  if lit.isPrefixOf s then some (s.drop lit.length) else none

/-- Drop a case-insensitive (ASCII) literal from the front of `s`;
`lit` is given in lower case.  Models an `/i` regex literal. -/
def ciDrop (lit : List Char) (s : List Char) : Option (List Char) :=
  if (s.take lit.length).map Char.toLower = lit then some (s.drop lit.length)
  else none

/-- Matcher for `/\/home\/[^\/\s]+/`: literal `/home/` followed by one or
more characters that are neither `/` nor whitespace (greedy; no
backtracking is possible since nothing follows the greedy class). -/
def tryHomeUnix (s : List Char) : Option (List Char) :=
  match litDrop "/home/".data s with
  | none => none
  | some after =>
    let run := after.takeWhile (fun c => c ≠ '/' && !isWsChar c)
    if run.isEmpty then none else some (after.drop run.length)

/-- Matcher for `/C:\\Users\\[^\\]+/`. -/
def tryUsersWinC (s : List Char) : Option (List Char) :=
  match litDrop "C:\\Users\\".data s with
  | none => none
  | some after =>
    let run := after.takeWhile (fun c => c ≠ '\\')
    if run.isEmpty then none else some (after.drop run.length)

/-- Matcher for `/\/Users\/[^\/\s]+/`. -/
def tryUsersUnix (s : List Char) : Option (List Char) :=
  match litDrop "/Users/".data s with
  | none => none
  | some after =>
    let run := after.takeWhile (fun c => c ≠ '/' && !isWsChar c)
    if run.isEmpty then none else some (after.drop run.length)

/-- Matcher for `/\\Users\\[^\\]+/`. -/
def tryUsersWin (s : List Char) : Option (List Char) :=
  match litDrop "\\Users\\".data s with
  | none => none
  | some after =>
    let run := after.takeWhile (fun c => c ≠ '\\')
    if run.isEmpty then none else some (after.drop run.length)

/-- The path-anonymisation phase of `SecurityUtils.sanitizeError`:
the four sequential global replaces on the message. -/
def replaceHomePaths (s : List Char) : List Char :=
  replaceAll tryUsersWin "\\Users\\<user>".data
    (replaceAll tryUsersUnix "/Users/<user>".data
      (replaceAll tryUsersWinC "C:\\Users\\<user>".data
        (replaceAll tryHomeUnix "/home/<user>".data s)))

/-- Common tail of the credential patterns: `[:\s]*` (or `[\s]*` for
`bearer`), optionally `['"]?`, then `[\w\-]+` (at least one character).
The greedy separator run, optional quote and greedy word run are uniquely
determined: a character released by backtracking the separator or quote can
never be accepted by `[\w\-]`, so the scan is deterministic. -/
def credTail (allowColon : Bool) (allowQuote : Bool) (after : List Char) :
    Option (List Char) :=
  let sep := after.takeWhile (fun c => (allowColon && c = ':') || isWsChar c)
  let after2 := after.drop sep.length
  let after3 :=
    if allowQuote then
      match after2 with
      | c :: rest => if c.toNat = 39 || c.toNat = 34 then rest else after2
      | [] => after2
    else after2
  let run := after3.takeWhile (fun c => isWordChar c || c = '-')
  if run.isEmpty then none else some (after3.drop run.length)

/-- Matcher for `/api[_-]?key[:\s]*['"]?[\w\-]+/i`.  The optional `[_-]`
is deterministic: if the underscore or hyphen is present but `key` does not
follow it, the variant without it cannot match either. -/
def tryApiKey (s : List Char) : Option (List Char) :=
  match ciDrop "api".data s with
  | none => none
  | some a1 =>
    let a2 :=
      match a1 with
      | c :: rest => if c = '_' || c = '-' then rest else a1
      | [] => a1
    match ciDrop "key".data a2 with
    | none => none
    | some a3 => credTail true true a3

/-- Matcher for `/LIT[:\s]*['"]?[\w\-]+/i` with a plain literal `LIT`
(`password`, `token`, `secret`, `auth`). -/
def tryCredLit (lit : List Char) (s : List Char) : Option (List Char) :=
  match ciDrop lit s with
  | none => none
  | some after => credTail true true after

/-- Matcher for `/bearer[\s]*[\w\-]+/i` (no colon, no quote). -/
def tryBearer (s : List Char) : Option (List Char) :=
  match ciDrop "bearer".data s with
  | none => none
  | some after => credTail false false after

/-- The credential-masking phase of `SecurityUtils.sanitizeError`: the six
sequential global replaces, each with its indexed redaction marker. -/
def redactCredentials (s : List Char) : List Char :=
  let s0 := replaceAll tryApiKey "SENSITIVE_INFO_0_REDACTED".data s
  let s1 := replaceAll (tryCredLit "password".data) "SENSITIVE_INFO_1_REDACTED".data s0
  let s2 := replaceAll (tryCredLit "token".data) "SENSITIVE_INFO_2_REDACTED".data s1
  let s3 := replaceAll (tryCredLit "secret".data) "SENSITIVE_INFO_3_REDACTED".data s2
  let s4 := replaceAll (tryCredLit "auth".data) "SENSITIVE_INFO_4_REDACTED".data s3
  replaceAll tryBearer "SENSITIVE_INFO_5_REDACTED".data s4

/-- The message transformation performed by `SecurityUtils.sanitizeError`
(path anonymisation followed by credential masking).  The returned object's
`code`, `timestamp` and `sanitized` fields carry no information used by any
claim and are not modelled. -/
def sanitizeErrorMsg (s : List Char) : List Char :=
  redactCredentials (replaceHomePaths s)

/-- The spec's `OutputSanitizer.sanitize` for a markup destination:
home-directory replacement, credential redaction, then HTML escaping
(`SecurityUtils.sanitizeError` message transforms composed with
`SecurityUtils.escapeHtml`, in the order the source applies them to worker
output). -/
def sanitizeText (s : List Char) : List Char :=
  escapeHtml (sanitizeErrorMsg s)

/-! ## Path validation (`SecurityUtils.validatePath`)

Paths are modelled with POSIX semantics: an absolute path is a list of
segments, `path.resolve(baseDir, userPath)` appends the segments of a
relative `userPath` to the resolved base, dropping `.` segments and
popping one segment for each `..` segment, and renders with `/`
separators.  The base directory is given already resolved, as the source
always passes `process.cwd()` or a previously resolved directory. -/

/-- Split a path string at `/`, auxiliary accumulator form. -/
def splitSegsAux (cur : List Char) : List Char → List (List Char)
  | [] => [cur.reverse]
  | c :: rest =>
    if c = '/' then cur.reverse :: splitSegsAux [] rest
    else splitSegsAux (c :: cur) rest

/-- The nonempty `/`-separated segments of a path string. -/
def splitSegs (s : List Char) : List (List Char) :=
  (splitSegsAux [] s).filter (fun seg => !seg.isEmpty)

/-- Segment-level `path.resolve(base, p)` for a relative `p`:
`.` segments vanish, `..` pops, anything else is appended. -/
def resolveSegs (base : List (List Char)) (p : List Char) : List (List Char) :=
  (splitSegs p).foldl
    (fun acc seg =>
      if seg = ".".data then acc
      else if seg = "..".data then acc.dropLast
      else acc ++ [seg])
    base

/-- Join segments with `/` separators. -/
def joinSegs : List (List Char) → List Char
  | [] => []
  | [s] => s
  | s :: rest => s ++ '/' :: joinSegs rest

/-- Render an absolute path from its segments. -/
def renderAbs (segs : List (List Char)) : List Char :=
  '/' :: joinSegs segs

/-- Regex `/^[a-zA-Z]:\\/`: a Windows drive-absolute path. -/
def hasWinAbs (s : List Char) : Bool :=
  match s with
  | a :: b :: c :: _ =>
    (('a' ≤ a && a ≤ 'z') || ('A' ≤ a && a ≤ 'Z')) && b = ':' && c = '\\'
  | _ => false

/-- A path separator character (`/` or `\`). -/
def isSepChar (c : Char) : Bool := c = '/' || c = '\\'

/-- Regex `/[\/\\]{2,}/`: two consecutive separator characters. -/
def hasDoubleSep : List Char → Bool
  | [] => false
  | [_] => false
  | a :: b :: rest => (isSepChar a && isSepChar b) || hasDoubleSep (b :: rest)

/-- The extensions of `/\.(exe|bat|cmd|scr|com|pif|vbs|js|jar|ps1)$/i`. -/
def execExts : List (List Char) :=
  ["exe", "bat", "cmd", "scr", "com", "pif", "vbs", "js", "jar", "ps1"].map String.data

/-- ASCII lower-casing of a whole string (JS `toLowerCase` restricted to
the ASCII range, which covers every pattern in the source). -/
def toLowerAll (s : List Char) : List Char := s.map Char.toLower

/-- Does the path end in one of the blocked executable extensions
(case-insensitive)? -/
def hasExecExt (s : List Char) : Bool :=
  execExts.any (fun ext => ('.' :: ext).isSuffixOf (toLowerAll s))

/-- The names of `/^(con|prn|aux|nul|com[1-9]|lpt[1-9])$/i`. -/
def reservedNames : List (List Char) :=
  ["con", "prn", "aux", "nul",
   "com1", "com2", "com3", "com4", "com5", "com6", "com7", "com8", "com9",
   "lpt1", "lpt2", "lpt3", "lpt4", "lpt5", "lpt6", "lpt7", "lpt8", "lpt9"].map String.data

/-- Is the whole path a Windows reserved device name (case-insensitive)? -/
def isReservedName (s : List Char) : Bool :=
  reservedNames.any (fun n => toLowerAll s = n)

/-- Regex `/[\x00-\x1f\x7f-\x9f]/`: a control character. -/
def hasControlChar (s : List Char) : Bool :=
  s.any (fun c => c.toNat ≤ 0x1f || (0x7f ≤ c.toNat && c.toNat ≤ 0x9f))

/-- Regex `/[<>|*?"]/`: a blocked symbol. -/
def hasDangerousSym (s : List Char) : Bool :=
  s.any (fun c => c = '<' || c = '>' || c = '|' || c = '*' || c = '?' || c.toNat = 34)

/-- Regex `/^\/+/`: a Unix-absolute path. -/
def startsWithSlash (s : List Char) : Bool :=
  match s with
  | c :: _ => c = '/'
  | [] => false

/-- The `dangerousPatterns` array of `SecurityUtils.validatePath`, in
source order.  `/\.\./` and `/\.{2,}/` both hold exactly when the string
contains two consecutive dots. -/
def dangerousPattern (s : List Char) : Bool :=
  containsSub "..".data s ||
  s.any (fun c => c = '~') ||
  startsWithSlash s ||
  hasWinAbs s ||
  s.any (fun c => c.toNat = 0) ||
  hasDangerousSym s ||
  containsSub "..".data s ||
  hasDoubleSep s ||
  hasExecExt s ||
  isReservedName s ||
  hasControlChar s

/-- `SecurityUtils.validatePath(userPath, baseDir)`: reject empty input,
reject any dangerous pattern, resolve against the base, reject when the
resolved path does not extend the resolved base or the relative remainder
still contains `..`, reject resolved paths longer than 260 characters, else
return the resolved path. -/
def validatePath (userPath : List Char) (baseDir : List (List Char)) :
    Except (List Char) (List Char) :=
  if userPath.isEmpty then
    Except.error "無効なパス: パスが指定されていません".data
  else if dangerousPattern userPath then
    Except.error ("不正なパス: 危険なパターンが検出されました - ".data ++ userPath)
  else
    let resolved := renderAbs (resolveSegs baseDir userPath)
    let normalizedBase := renderAbs baseDir
    if !normalizedBase.isPrefixOf resolved then
      Except.error ("不正なパス: ベースディレクトリ外へのアクセス - ".data ++ userPath)
    else
      let relativePath := joinSegs ((resolveSegs baseDir userPath).drop baseDir.length)
      if containsSub "..".data relativePath || "../".data.isPrefixOf relativePath then
        Except.error ("不正なパス: 正規化後もパストラバーサルが検出されました - ".data ++ userPath)
      else if 260 < resolved.length then
        Except.error ("不正なパス: パスが長すぎます - ".data ++ userPath)
      else
        Except.ok resolved

/-! ## ResultCache

`ResultCache` stores deep copies of result objects in a JS `Map`.  Object
identity and mutation are modelled with an explicit heap: a reference is
an index into the heap, `JSON.parse(JSON.stringify(x))` is allocation of a
fresh reference holding the same value, and field mutation is `heapWrite`.
The `Map` is an association list in insertion order (`Map.set` on an
existing key updates in place, `Map.delete` removes the entry), exactly
JS `Map` iteration semantics. -/

/-- A heap of JS objects; a reference is an index into `vals`. -/
structure ObjHeap (V : Type) where
  vals : List V

/-- Dereference (out-of-range reads never occur in the theorems below). -/
def heapRead {V : Type} [Inhabited V] (h : ObjHeap V) (r : Nat) : V :=
  h.vals.getD r default

/-- Mutate the object behind reference `r`. -/
def heapWrite {V : Type} (h : ObjHeap V) (r : Nat) (v : V) : ObjHeap V :=
  ⟨h.vals.set r v⟩

/-- Allocate a fresh object, returning the new heap and reference. -/
def heapAlloc {V : Type} (h : ObjHeap V) (v : V) : ObjHeap V × Nat :=
  (⟨h.vals ++ [v]⟩, h.vals.length)

/-- One stored cache entry: a reference to the deep copy plus the
insertion timestamp (`{ result, timestamp }` in the source). -/
structure CacheEntry where
  ref : Nat
  timestamp : Nat
deriving DecidableEq

/-- `ResultCache` state: the heap plus the backing `Map`. -/
structure CacheSt (V : Type) where
  heap : ObjHeap V
  entries : List (List Char × CacheEntry)

/-- `this.ttl = 15 * 60 * 1000`. -/
def CACHE_TTL : Nat := 15 * 60 * 1000

/-- `this.maxSize = 100`. -/
def CACHE_MAX_SIZE : Nat := 100

/-- JS `Map.set`: update in place if the key exists, else append. -/
def mapSet {A : Type} : List (List Char × A) → List Char → A → List (List Char × A)
  | [], k, v => [(k, v)]
  | (k0, v0) :: rest, k, v =>
    if k0 = k then (k, v) :: rest else (k0, v0) :: mapSet rest k v

/-- JS `Map.get`. -/
def mapGet {A : Type} (es : List (List Char × A)) (k : List Char) : Option A :=
  (es.find? (fun e => e.1 = k)).map (fun e => e.2)

/-- JS `Map.delete`: remove the (unique) entry with key `k`. -/
def mapDelete {A : Type} : List (List Char × A) → List Char → List (List Char × A)
  | [], _ => []
  | (k0, v0) :: rest, k =>
    if k0 = k then rest else (k0, v0) :: mapDelete rest k

/-- One iteration of the `ResultCache.evictOldest` loop: remember the
entry only if its timestamp is *strictly* below the best so far. -/
def evictStep (acc : Option (List Char) × Nat) (e : List Char × CacheEntry) :
    Option (List Char) × Nat :=
  if e.2.timestamp < acc.2 then (some e.1, e.2.timestamp) else acc

/-- The loop of `ResultCache.evictOldest`: `oldestTime` starts at
`Date.now()`, so the first entry with the minimal timestamp wins, and no
entry at all is selected when every timestamp is `≥ now`. -/
def evictLoop (es : List (List Char × CacheEntry)) (now : Nat) : Option (List Char) :=
  (es.foldl evictStep ((none : Option (List Char)), now)).1

/-- `ResultCache.evictOldest`. -/
def evictOldest {V : Type} (st : CacheSt V) (now : Nat) : CacheSt V :=
  match evictLoop st.entries now with
  | some k => ⟨st.heap, mapDelete st.entries k⟩
  | none => st

/-- `ResultCache.set` at the key level (the body after `getCacheKey`):
evict when at capacity, deep-copy the result, store the copy with the
current timestamp. -/
def cacheSetKey {V : Type} [Inhabited V] (st : CacheSt V) (k : List Char)
    (r : Nat) (now : Nat) : CacheSt V :=
  let st1 := if CACHE_MAX_SIZE ≤ st.entries.length then evictOldest st now else st
  let alloc := heapAlloc st1.heap (heapRead st1.heap r)
  ⟨alloc.1, mapSet st1.entries k ⟨alloc.2, now⟩⟩

/-- `ResultCache.get` at the key level: return the stored reference while
fresh, delete an expired entry and return nothing. -/
def cacheGetKey {V : Type} (st : CacheSt V) (k : List Char) (now : Nat) :
    Option Nat × CacheSt V :=
  match mapGet st.entries k with
  | some e =>
    if now - e.timestamp < CACHE_TTL then (some e.ref, st)
    else (none, ⟨st.heap, mapDelete st.entries k⟩)
  | none => (none, st)

/-- A sequence of `set` operations `(key, source reference, timestamp)`
applied in order. -/
def runPuts {V : Type} [Inhabited V] (init : CacheSt V)
    (ops : List (List Char × Nat × Nat)) : CacheSt V :=
  ops.foldl (fun st op => cacheSetKey st op.1 op.2.1 op.2.2) init

/-! ## Issue parsing (`AgentSandbox.parseAgentOutput`)

Each severity pattern has the shape
`/(?:M1|M2|M3):\s*(.{1,500}?)(?:\n|$)/g`.  At a given start position the
match is determined as follows: after the marker and colon, the greedy
`\s*` first takes the whole whitespace run; the lazy capture (`.` does not
match a newline) must then reach the next newline or the end of input
within 1–500 characters; on failure the greedy run backtracks one
character at a time.  `sevTryAt`/`sevBacktrack` implement exactly this. -/

/-- Try each marker (in alternation order) followed by `:` at the head. -/
def tryMarkers : List (List Char) → List Char → Option (List Char)
  | [], _ => none
  | m :: ms, s =>
    match litDrop (m ++ [':']) s with
    | some rest => some rest
    | none => tryMarkers ms s

/-- Attempt the capture with the greedy `\s*` run cut to length `k`:
the capture is the maximal newline-free run from there, accepted when its
length is in `[1, 500]`; the terminating newline (if any) is consumed. -/
def sevTryAt (rest : List Char) (k : Nat) : Option (List Char × List Char) :=
  let cap := rest.drop k
  let msg := cap.takeWhile (fun c => c ≠ '\n')
  if 1 ≤ msg.length && msg.length ≤ 500 then
    some (msg, cap.drop (min (msg.length + 1) cap.length))
  else none

/-- Backtrack the whitespace run from length `k` down to `0`. -/
def sevBacktrack (rest : List Char) : Nat → Option (List Char × List Char)
  | 0 => sevTryAt rest 0
  | k + 1 =>
    match sevTryAt rest (k + 1) with
    | some r => some r
    | none => sevBacktrack rest k

/-- One severity-pattern match attempt at the current position, returning
the captured message and the remainder after the whole match. -/
def sevMatchAt (markers : List (List Char)) (s : List Char) :
    Option (List Char × List Char) :=
  match tryMarkers markers s with
  | none => none
  | some rest => sevBacktrack rest (rest.takeWhile isWsChar).length

/-- `String.matchAll` scan: on a match continue after it, otherwise
advance one position.  Every match consumes at least two characters, so
fuel `s.length + 1` suffices. -/
def sevScan (markers : List (List Char)) : Nat → List Char → List (List Char)
  | 0, _ => []
  | _ + 1, [] => []
  | fuel + 1, c :: t =>
    match sevMatchAt markers (c :: t) with
    | some (msg, rest) => msg :: sevScan markers fuel rest
    | none => sevScan markers fuel t

/-- All captures of one severity pattern over the output. -/
def sevMatchAll (markers : List (List Char)) (s : List Char) : List (List Char) :=
  sevScan markers (s.length + 1) s

/-- `(?:CRITICAL|重大|🔴)`. -/
def criticalMarkers : List (List Char) := ["CRITICAL".data, "重大".data, "🔴".data]

/-- `(?:ERROR|エラー|🔴)` — note the red-circle emoji is shared with the
critical pattern. -/
def errorMarkers : List (List Char) := ["ERROR".data, "エラー".data, "🔴".data]

/-- `(?:WARNING|警告|🟡)`. -/
def warningMarkers : List (List Char) := ["WARNING".data, "警告".data, "🟡".data]

/-- `(?:INFO|情報|🔵)`. -/
def infoMarkers : List (List Char) := ["INFO".data, "情報".data, "🔵".data]

/-- `(?:SUGGESTION|提案|💡)`. -/
def suggestionMarkers : List (List Char) := ["SUGGESTION".data, "提案".data, "💡".data]

/-- The `patterns` object of `parseAgentOutput`, in entry order. -/
def levelPatterns : List (List Char × List (List Char)) :=
  [("critical".data, criticalMarkers),
   ("error".data, errorMarkers),
   ("warning".data, warningMarkers),
   ("info".data, infoMarkers),
   ("suggestion".data, suggestionMarkers)]

/-- A structured finding (`Issue`), as built by `parseAgentOutput`. -/
structure Issue where
  level : List Char
  message : List Char
  category : List Char
  priority : List Char
  agentId : List Char
  autoFixAvailable : Bool
  file : Option (List Char)
  line : Option Nat
  type : List Char
deriving DecidableEq

/-- A worker record from the agent catalog, as read by this core. -/
structure Agent where
  id : List Char
  name : List Char
  model : List Char
  category : List Char
  priority : List Char
  errorTypes : List (List Char)
  canAutoFix : Bool
  allowedCommands : List (List Char)
deriving DecidableEq, Inhabited

/-- JS `String.trim`. -/
def trimWs (s : List Char) : List Char :=
  ((s.dropWhile isWsChar).reverse.dropWhile isWsChar).reverse

/-- The marker alternation `(?:in|at|ファイル:?)` of the file-extraction
regex; the optional colon is greedy (if taking it fails, the variant
without it fails as well, since `\s*` cannot consume a colon and `[^\s:]`
rejects it). -/
def tryFileMarker (s : List Char) : Option (List Char) :=
  match litDrop "in".data s with
  | some r => some r
  | none =>
    match litDrop "at".data s with
    | some r => some r
    | none =>
      match litDrop "ファイル".data s with
      | some r =>
        match r with
        | c :: rest => if c = ':' then some rest else some r
        | [] => some r
      | none => none

/-- Decimal digit run to a number (JS `parseInt` on a `\d+` capture). -/
def digitsToNat (ds : List Char) : Nat :=
  ds.foldl (fun n c => n * 10 + (c.toNat - 48)) 0

/-- One attempt of `/(?:in|at|ファイル:?)\s*([^\s:]{1,200})(?::(\d+))?/`
at the current position: marker, greedy whitespace, up to 200 characters
that are neither whitespace nor `:` (at least one), then an optional
`:line` group. -/
def fileMatchAt (s : List Char) : Option (List Char × Option Nat) :=
  match tryFileMarker s with
  | none => none
  | some after =>
    let a2 := after.drop (after.takeWhile isWsChar).length
    let name := (a2.takeWhile (fun c => !isWsChar c && c ≠ ':')).take 200
    if name.isEmpty then none
    else
      let a3 := a2.drop name.length
      let lineNum :=
        match a3 with
        | ':' :: ds =>
          let digits := ds.takeWhile (fun c => '0' ≤ c && c ≤ '9')
          if digits.isEmpty then none else some (digitsToNat digits)
        | _ => none
      some (name, lineNum)

/-- First match of the file-extraction regex (no `g` flag). -/
def fileScan : Nat → List Char → Option (List Char × Option Nat)
  | 0, _ => none
  | _ + 1, [] => none
  | fuel + 1, c :: t =>
    match fileMatchAt (c :: t) with
    | some r => some r
    | none => fileScan fuel t

/-- `issue.message.match(...)` for the file-extraction regex. -/
def fileMatchFirst (s : List Char) : Option (List Char × Option Nat) :=
  fileScan (s.length + 1) s

/-- `errorType.replace('-', ' ')`: only the first hyphen is replaced
(no `g` flag in the source). -/
def replaceFirstHyphen : List Char → List Char
  | [] => []
  | c :: rest => if c = '-' then ' ' :: rest else c :: replaceFirstHyphen rest

/-- The error-type classification loop: first of the (at most 10)
declared error types whose hyphen-to-space form occurs in the lower-cased
message; an empty winner is falsy in JS and falls back to `general`. -/
def classifyType (errorTypes : List (List Char)) (message : List Char) : List Char :=
  match (errorTypes.take 10).find?
      (fun et => containsSub (replaceFirstHyphen et) (toLowerAll message)) with
  | some et => if et.isEmpty then "general".data else et
  | none => "general".data

/-- Build one `Issue` from a captured message (the per-match body of
`parseAgentOutput`). -/
def mkIssue (agent : Agent) (level : List Char) (rawMsg : List Char) : Issue :=
  let message := escapeHtml (trimWs rawMsg)
  let fm := fileMatchFirst message
  { level := level
    message := message
    category := agent.category
    priority := agent.priority
    agentId := agent.id
    autoFixAvailable := agent.canAutoFix
    file := fm.map (fun r => escapeHtml r.1)
    line := fm.bind (fun r => r.2.bind
      (fun n => if 0 < n && n < 1000000 then some n else none))
    type := classifyType agent.errorTypes message }

/-- `AgentSandbox.parseAgentOutput`: truncate to 1 MiB, run the five
severity patterns in order keeping at most 100 matches each, build the
issues, and keep at most 1000 in total. -/
def parseAgentOutput (agent : Agent) (output : List Char) : List Issue :=
  let out := output.take (1024 * 1024)
  ((levelPatterns.map
    (fun lp => ((sevMatchAll lp.2 out).take 100).map (mkIssue agent lp.1))).flatten).take 1000

/-! ## Sandboxed execution (`AgentSandbox.execute`) -/

/-- What `runAgentInSandbox` produced (`{ issues, rawOutput }`). -/
structure RunOut where
  issues : List Issue
  rawOutput : List Char
deriving DecidableEq

/-- A uniform result record (`ExecutionResult`).  `error` and `sandboxId`
are `Option` because some creation sites omit them (`undefined`). -/
structure ExecResult where
  agentId : List Char
  agentName : List Char
  issues : List Issue
  rawOutput : List Char
  executionTime : Nat
  error : Option (List Char)
  sandboxId : Option (List Char)
deriving DecidableEq

/-- The per-issue part of `AgentSandbox.sanitizeResult`; in
`issue.file ? escapeHtml(issue.file) : undefined` an empty string is
falsy. -/
def sanitizeIssue (i : Issue) : Issue :=
  { i with
    message := escapeHtml i.message
    file := match i.file with
      | some f => if f.isEmpty then none else some (escapeHtml f)
      | none => none }

/-- `AgentSandbox.sanitizeResult`. -/
def sanitizeResult (r : ExecResult) : ExecResult :=
  { agentId := escapeHtml r.agentId
    agentName := escapeHtml r.agentName
    issues := r.issues.map sanitizeIssue
    rawOutput := escapeHtml r.rawOutput
    executionTime := r.executionTime
    error := match r.error with
      | some e => if e.isEmpty then none else some (escapeHtml e)
      | none => none
    sandboxId := r.sandboxId }

/-- `AgentSandbox.runAgentInSandbox`: invoke the external launcher (the
`cmdOutcome` oracle stands for the `SecurityUtils.executeCommand` call and
its possible exception) and parse its stdout. -/
def runAgentInSandbox (agent : Agent) (cmdOutcome : Except (List Char) (List Char)) :
    Except (List Char) RunOut :=
  match cmdOutcome with
  | Except.error e => Except.error e
  | Except.ok stdout => Except.ok ⟨parseAgentOutput agent stdout, stdout⟩

/-- `AgentSandbox.execute`: everything inside the `try` — sandbox
creation, the timeout race, the launcher call, parsing — is abstracted by
the `outcome` oracle (`Except.error` is any exception raised in steps 1–5,
including the timeout rejection); the `catch` branch converts it into a
result record with `error` populated and `issues` empty.  The function is
total: it never propagates an exception. -/
def AgentSandbox.execute (agent : Agent) (outcome : Except (List Char) RunOut)
    (elapsed : Nat) (sandboxId : List Char) : ExecResult :=
  match outcome with
  | Except.ok r =>
    sanitizeResult
      { agentId := agent.id
        agentName := agent.name
        issues := r.issues
        rawOutput := r.rawOutput
        executionTime := elapsed
        error := none
        sandboxId := some sandboxId }
  | Except.error e =>
    { agentId := agent.id
      agentName := agent.name
      issues := []
      rawOutput := []
      executionTime := elapsed
      error := some (sanitizeErrorMsg e)
      sandboxId := some sandboxId }

/-! ## Command guard (`SecurityUtils.executeCommand`) -/

/-- `Config.ALLOWED_COMMANDS` from `smart-review-config.js`. -/
def ALLOWED_COMMANDS : List (List Char) :=
  ["git".data, "mkdir".data, "claude-code".data, "claude".data]

/-- Argument sanitisation: `arg.replace(/[;&|`$()<>\n\r\t]/g, '')`
(the characters are written here by code point: `;` `&` `|` backtick `$`
`(` `)` `<` `>` LF CR TAB). -/
def sanitizeArg (a : List Char) : List Char :=
  a.filter (fun c => !((c.toNat = 59) || (c.toNat = 38) || (c.toNat = 124) ||
    (c.toNat = 96) || (c.toNat = 36) || (c.toNat = 40) || (c.toNat = 41) ||
    (c.toNat = 60) || (c.toNat = 62) || (c.toNat = 10) || (c.toNat = 13) ||
    (c.toNat = 9)))

/-- What the process-spawn primitive returned. -/
structure SpawnOut where
  stdout : List Char
  stderr : List Char
deriving DecidableEq

/-- The success value of `executeCommand`. -/
structure CmdResult where
  stdout : List Char
  stderr : List Char
  exitCode : Nat
  command : List Char
  args : List (List Char)
deriving DecidableEq

/-- `SecurityUtils.executeCommand`: the allow-list check happens before
the `try` block and before any use of the spawn primitive (`execFileAsync`
is modelled by the `spawn` oracle, counted by `spawnCount`); the `cwd` is
validated while building the spawn options, still before spawning; any
exception inside the `try` is re-thrown with a sanitised message. -/
def executeCommand (command : List Char) (args : List (List Char))
    (cwd : List Char) (base : List (List Char))
    (spawn : List Char → List (List Char) → Except (List Char) SpawnOut)
    (spawnCount : Nat) : Except (List Char) CmdResult × Nat :=
  if command ∈ ALLOWED_COMMANDS then
    let sanitizedArgs := args.map sanitizeArg
    match validatePath cwd base with
    | Except.error e => (Except.error (sanitizeErrorMsg e), spawnCount)
    | Except.ok _ =>
      match spawn command sanitizedArgs with
      | Except.ok r =>
        (Except.ok ⟨r.stdout, r.stderr, 0, command, sanitizedArgs⟩, spawnCount + 1)
      | Except.error e => (Except.error (sanitizeErrorMsg e), spawnCount + 1)
  else
    (Except.error ("許可されていないコマンド: ".data ++ command), spawnCount)

/-! ## The scheduler (`ParallelExecutor`)

`executeAgents` is modelled over a per-agent outcome oracle `run`:
`Except.ok r` is a fulfilled sandbox promise with value `r` and
`Except.error e` a rejected one (`Promise.allSettled` never itself
rejects, so the dead outer `catch` of the source is not modelled).

The bucket lookup `groups[agent.priority]` of `groupByPriority` is a
plain-object property access and therefore traverses the prototype
chain: the four literal keys hit their own bucket; a priority naming an
`Object.prototype` member (`toString`, `valueOf`, `constructor`, and so
on) yields a truthy inherited value with no `push` method, so the
`forEach` callback throws a `TypeError` that propagates out of
`groupByPriority` and rejects the whole `executeAgents` call; any other
priority yields `undefined` and falls to the `medium` default. -/

/-- Is the priority one of the four tier keys? -/
def recognizedPriority (p : List Char) : Bool :=
  p = "critical".data || p = "high".data || p = "medium".data || p = "low".data

/-- The own property names of `Object.prototype`, inherited by the
object literal `groups`: for these keys `groups[p]` is truthy (a
function, or the prototype object itself for the last one). -/
def objectProtoMembers : List (List Char) :=
  ["constructor", "hasOwnProperty", "isPrototypeOf", "propertyIsEnumerable",
   "toLocaleString", "toString", "valueOf", "__defineGetter__",
   "__defineSetter__", "__lookupGetter__", "__lookupSetter__",
   "__proto__"].map String.data

/-- The `TypeError` raised by `groups[agent.priority].push(agent)` when
the looked-up inherited value has no `push` method. -/
def protoTypeError : List Char :=
  "TypeError: groups[agent.priority].push is not a function".data

/-- The predicate of the `medium` bucket after a successful grouping:
the literal key `medium`, or an unrecognized priority whose lookup is
`undefined` (not an inherited `Object.prototype` member). -/
def mediumDefault (a : Agent) : Bool :=
  a.priority = "medium".data
    || (!recognizedPriority a.priority && !(a.priority ∈ objectProtoMembers))

/-- The four buckets of the `groups` object literal. -/
structure PriorityGroups where
  critical : List Agent
  high : List Agent
  medium : List Agent
  low : List Agent
deriving DecidableEq

/-- One step of `agents.forEach(...)`: `groups[agent.priority]` with JS
property-lookup semantics — an own tier key pushes there; an
`Object.prototype` member name is truthy but has no `push`, throwing a
`TypeError`; anything else is `undefined` (falsy) and falls to the
`medium` default. -/
def pushAgent (g : PriorityGroups) (a : Agent) : Except (List Char) PriorityGroups :=
  if a.priority = "critical".data then
    Except.ok { g with critical := g.critical ++ [a] }
  else if a.priority = "high".data then
    Except.ok { g with high := g.high ++ [a] }
  else if a.priority = "medium".data then
    Except.ok { g with medium := g.medium ++ [a] }
  else if a.priority = "low".data then
    Except.ok { g with low := g.low ++ [a] }
  else if a.priority ∈ objectProtoMembers then
    Except.error protoTypeError
  else
    Except.ok { g with medium := g.medium ++ [a] }

/-- The whole `forEach` loop, propagating a thrown `TypeError`. -/
def pushAll (g : PriorityGroups) : List Agent → Except (List Char) PriorityGroups
  | [] => Except.ok g
  | a :: rest =>
    match pushAgent g a with
    | Except.error e => Except.error e
    | Except.ok g2 => pushAll g2 rest

/-- `ParallelExecutor.groupByPriority`: fill the four buckets in input
order (throwing for prototype-member priorities), then return the
nonempty buckets in the fixed tier order. -/
def groupByPriority (agents : List Agent) : Except (List Char) (List (List Agent)) :=
  match pushAll ⟨[], [], [], []⟩ agents with
  | Except.error e => Except.error e
  | Except.ok g =>
    Except.ok ([g.critical, g.high, g.medium, g.low].filter (fun l => !l.isEmpty))

/-- No agent's priority names an `Object.prototype` member — the
condition under which the grouping (and hence `executeAgents`) returns
normally. -/
def prototypeSafe (agents : List Agent) : Bool :=
  agents.all (fun a => !(a.priority ∈ objectProtoMembers))

/-- JS `x || 'unknown'` on a string field. -/
def jsOr (s fallback : List Char) : List Char :=
  if s.isEmpty then fallback else s

/-- How one settled promise is turned into a result entry: a fulfilled
value is kept, a rejection is converted to an error entry (note: no
`sandboxId` field at this creation site). -/
def settleEntry (run : Agent → Except (List Char) ExecResult) (a : Agent) :
    ExecResult :=
  match run a with
  | Except.ok r => r
  | Except.error e =>
    { agentId := jsOr a.id "unknown".data
      agentName := jsOr a.name "unknown".data
      issues := []
      rawOutput := []
      executionTime := 0
      error := some (sanitizeErrorMsg e)
      sandboxId := none }

/-- `Math.min(agents.length, 4)`. -/
def maxConcurrencyOf (agents : List Agent) : Nat := min agents.length 4

/-- `ParallelExecutor.executeAgents`: group by priority (an exception
thrown there — the grouping `TypeError` — escapes the `async` function
as a rejected promise, modelled as `Except.error`), then per group
settle the first `maxConcurrency` agents (`group.slice(0, maxConcurrency)`
— agents beyond the cap are not executed at all) and append their entries
in order. -/
def executeAgents (agents : List Agent)
    (run : Agent → Except (List Char) ExecResult) :
    Except (List Char) (List ExecResult) :=
  if agents.isEmpty then Except.ok []
  else
    match groupByPriority agents with
    | Except.error e => Except.error e
    | Except.ok groups =>
      Except.ok (groups.foldl
        (fun results group =>
          results ++ (group.take (maxConcurrencyOf agents)).map (settleEntry run))
        [])

/-- The agents whose sandboxes `executeAgents` actually launches when the
grouping succeeds: per tier, the first `maxConcurrency` of the tier. -/
def keptWorkers (agents : List Agent) : List Agent :=
  match groupByPriority agents with
  | Except.error _ => []
  | Except.ok groups =>
    groups.foldl (fun acc group => acc ++ group.take (maxConcurrencyOf agents)) []

/-! ## Concrete fixtures used by the closed theorems -/

/-- A minimal worker record with the given id and priority. -/
def mkAgent (id : List Char) (priority : List Char) : Agent :=
  { id := id
    name := id
    model := "opus".data
    category := "review".data
    priority := priority
    errorTypes := []
    canAutoFix := false
    allowedCommands := [] }

/-- A plain successful result for a worker. -/
def simpleResult (a : Agent) : ExecResult :=
  { agentId := a.id
    agentName := a.name
    issues := []
    rawOutput := []
    executionTime := 1
    error := none
    sandboxId := none }

/-- The always-fulfilled outcome oracle. -/
def runOk : Agent → Except (List Char) ExecResult :=
  fun a => Except.ok (simpleResult a)

/-- An outcome oracle whose promises all reject. -/
def runErrBoom : Agent → Except (List Char) ExecResult :=
  fun _ => Except.error "boom".data

/-- Five critical-tier workers. -/
def fiveCrit : List Agent :=
  [mkAgent "c1".data "critical".data, mkAgent "c2".data "critical".data,
   mkAgent "c3".data "critical".data, mkAgent "c4".data "critical".data,
   mkAgent "c5".data "critical".data]

/-- Five workers whose priority is not one of the four tier names. -/
def bogusAgents : List Agent :=
  [mkAgent "b1".data "bogus".data, mkAgent "b2".data "bogus".data,
   mkAgent "b3".data "bogus".data, mkAgent "b4".data "bogus".data,
   mkAgent "b5".data "bogus".data]

/-- The critical `sec` worker of the spec's end-to-end scenario. -/
def secAgent : Agent := mkAgent "sec".data "critical".data

/-- Two observably different sandbox results for `secAgent`. -/
def resA : ExecResult := simpleResult secAgent

/-- A result differing from `resA` only in its execution time. -/
def resB : ExecResult := { resA with executionTime := 2 }

/-- A concrete worker for the parser theorems. -/
def agentXC : Agent := mkAgent "xc".data "critical".data

/-- A one-object heap state for the cache theorems: reference `0` holds
the value `7`, the cache is empty. -/
def stC4 : CacheSt Nat := ⟨⟨[7]⟩, []⟩

/-- Distinct one-character keys for the capacity counterexample. -/
def natKey (n : Nat) : List Char := [Char.ofNat (65 + n)]

/-- 101 distinct-key `set` operations, all at timestamp `0`. -/
def capOps : List (List Char × Nat × Nat) :=
  (List.range 101).map (fun n => (natKey n, 0, 0))

/-! ## Helper lemmas -/

lemma foldl_append_acc {α β : Type} (f : α → List β) :
    ∀ (gs : List α) (acc : List β),
      gs.foldl (fun rs g => rs ++ f g) acc = acc ++ (gs.map f).flatten := by
  intro gs
  induction gs with
  | nil => intro acc; simp
  | cons g gs ih => intro acc; simp [ih, List.append_assoc]

lemma flatten_map_map {α β : Type} (f : α → β) :
    ∀ (l : List (List α)), (l.flatten).map f = (l.map (List.map f)).flatten := by
  intro l
  induction l with
  | nil => simp
  | cons x l ih => simp [ih]

lemma pushAgent_ok_of_safe (g : PriorityGroups) (a : Agent)
    (h : a.priority ∉ objectProtoMembers) :
    ∃ g2, pushAgent g a = Except.ok g2 := by
  unfold pushAgent
  by_cases h1 : a.priority = "critical".data
  · rw [if_pos h1]; exact ⟨_, rfl⟩
  · rw [if_neg h1]
    by_cases h2 : a.priority = "high".data
    · rw [if_pos h2]; exact ⟨_, rfl⟩
    · rw [if_neg h2]
      by_cases h3 : a.priority = "medium".data
      · rw [if_pos h3]; exact ⟨_, rfl⟩
      · rw [if_neg h3]
        by_cases h4 : a.priority = "low".data
        · rw [if_pos h4]; exact ⟨_, rfl⟩
        · rw [if_neg h4, if_neg h]
          exact ⟨_, rfl⟩

lemma pushAgent_ok_cases (g : PriorityGroups) (a : Agent) :
    (∃ g2, pushAgent g a = Except.ok g2)
    ∨ pushAgent g a = Except.error protoTypeError := by
  unfold pushAgent
  by_cases h1 : a.priority = "critical".data
  · rw [if_pos h1]; exact Or.inl ⟨_, rfl⟩
  · rw [if_neg h1]
    by_cases h2 : a.priority = "high".data
    · rw [if_pos h2]; exact Or.inl ⟨_, rfl⟩
    · rw [if_neg h2]
      by_cases h3 : a.priority = "medium".data
      · rw [if_pos h3]; exact Or.inl ⟨_, rfl⟩
      · rw [if_neg h3]
        by_cases h4 : a.priority = "low".data
        · rw [if_pos h4]; exact Or.inl ⟨_, rfl⟩
        · rw [if_neg h4]
          by_cases h5 : a.priority ∈ objectProtoMembers
          · rw [if_pos h5]; exact Or.inr rfl
          · rw [if_neg h5]; exact Or.inl ⟨_, rfl⟩

lemma pushAgent_err (g : PriorityGroups) (a : Agent)
    (h1 : recognizedPriority a.priority = false)
    (h2 : a.priority ∈ objectProtoMembers) :
    pushAgent g a = Except.error protoTypeError := by
  unfold recognizedPriority at h1
  simp only [Bool.or_eq_false_iff, decide_eq_false_iff_not] at h1
  obtain ⟨⟨⟨hcrit, hhigh⟩, hmed⟩, hlow⟩ := h1
  unfold pushAgent
  rw [if_neg hcrit, if_neg hhigh, if_neg hmed, if_neg hlow, if_pos h2]

lemma pushAll_ok_of_safe :
    ∀ (agents : List Agent) (g : PriorityGroups),
      (∀ a ∈ agents, a.priority ∉ objectProtoMembers) →
      ∃ g2, pushAll g agents = Except.ok g2 := by
  intro agents
  induction agents with
  | nil => intro g _; exact ⟨g, rfl⟩
  | cons a rest ih =>
    intro g h
    obtain ⟨g1, hg1⟩ := pushAgent_ok_of_safe g a (h a (List.mem_cons_self a rest))
    obtain ⟨g2, hg2⟩ := ih g1 (fun x hx => h x (List.mem_cons_of_mem a hx))
    refine ⟨g2, ?_⟩
    show pushAll g (a :: rest) = Except.ok g2
    unfold pushAll
    rw [hg1]
    exact hg2

lemma pushAll_err :
    ∀ (agents : List Agent) (g : PriorityGroups),
      (∃ a ∈ agents, recognizedPriority a.priority = false
        ∧ a.priority ∈ objectProtoMembers) →
      pushAll g agents = Except.error protoTypeError := by
  intro agents
  induction agents with
  | nil =>
    intro g h
    obtain ⟨a, ha, _⟩ := h
    cases ha
  | cons x rest ih =>
    intro g h
    rcases pushAgent_ok_cases g x with ⟨g1, hg1⟩ | hg1
    · obtain ⟨a, ha, h1, h2⟩ := h
      rcases List.mem_cons.mp ha with ha | ha
      · subst ha
        rw [pushAgent_err g a h1 h2] at hg1
        cases hg1
      · show pushAll g (x :: rest) = Except.error protoTypeError
        unfold pushAll
        rw [hg1]
        exact ih g1 ⟨a, ha, h1, h2⟩
    · show pushAll g (x :: rest) = Except.error protoTypeError
      unfold pushAll
      rw [hg1]

lemma pushAll_spec :
    ∀ (agents : List Agent) (g g2 : PriorityGroups),
      pushAll g agents = Except.ok g2 →
        g2.critical = g.critical ++ agents.filter (fun a => a.priority = "critical".data)
        ∧ g2.high = g.high ++ agents.filter (fun a => a.priority = "high".data)
        ∧ g2.medium = g.medium ++ agents.filter mediumDefault
        ∧ g2.low = g.low ++ agents.filter (fun a => a.priority = "low".data) := by
  intro agents
  induction agents with
  | nil =>
    intro g g2 h
    simp only [pushAll] at h
    cases h
    simp
  | cons a rest ih =>
    intro g g2 h
    unfold pushAll pushAgent at h
    by_cases h1 : a.priority = "critical".data
    · rw [if_pos h1] at h
      obtain ⟨hc, hh, hm, hl⟩ := ih _ g2 h
      refine ⟨?_, ?_, ?_, ?_⟩ <;>
        simp [hc, hh, hm, hl, List.filter_cons, h1, mediumDefault,
          recognizedPriority, List.append_assoc]
    · rw [if_neg h1] at h
      by_cases h2 : a.priority = "high".data
      · rw [if_pos h2] at h
        obtain ⟨hc, hh, hm, hl⟩ := ih _ g2 h
        refine ⟨?_, ?_, ?_, ?_⟩ <;>
          simp [hc, hh, hm, hl, List.filter_cons, h1, h2, mediumDefault,
            recognizedPriority, List.append_assoc]
      · rw [if_neg h2] at h
        by_cases h3 : a.priority = "medium".data
        · rw [if_pos h3] at h
          obtain ⟨hc, hh, hm, hl⟩ := ih _ g2 h
          refine ⟨?_, ?_, ?_, ?_⟩ <;>
            simp [hc, hh, hm, hl, List.filter_cons, h1, h2, h3, mediumDefault,
              recognizedPriority, List.append_assoc]
        · rw [if_neg h3] at h
          by_cases h4 : a.priority = "low".data
          · rw [if_pos h4] at h
            obtain ⟨hc, hh, hm, hl⟩ := ih _ g2 h
            refine ⟨?_, ?_, ?_, ?_⟩ <;>
              simp [hc, hh, hm, hl, List.filter_cons, h1, h2, h3, h4, mediumDefault,
                recognizedPriority, List.append_assoc]
          · rw [if_neg h4] at h
            by_cases h5 : a.priority ∈ objectProtoMembers
            · rw [if_pos h5] at h
              simp at h
            · rw [if_neg h5] at h
              obtain ⟨hc, hh, hm, hl⟩ := ih _ g2 h
              refine ⟨?_, ?_, ?_, ?_⟩ <;>
                simp [hc, hh, hm, hl, List.filter_cons, h1, h2, h3, h4, h5,
                  mediumDefault, recognizedPriority, List.append_assoc]

lemma groupByPriority_ok_of_safe (agents : List Agent)
    (h : prototypeSafe agents = true) :
    groupByPriority agents = Except.ok
      (([agents.filter (fun a => a.priority = "critical".data),
         agents.filter (fun a => a.priority = "high".data),
         agents.filter mediumDefault,
         agents.filter (fun a => a.priority = "low".data)]).filter
        (fun l => !l.isEmpty)) := by
  have hsafe : ∀ a ∈ agents, a.priority ∉ objectProtoMembers := by
    intro a ha
    have := List.all_eq_true.mp h a ha
    simpa using this
  obtain ⟨g2, hg2⟩ := pushAll_ok_of_safe agents ⟨[], [], [], []⟩ hsafe
  obtain ⟨hc, hh, hm, hl⟩ := pushAll_spec agents ⟨[], [], [], []⟩ g2 hg2
  simp only [List.nil_append] at hc hh hm hl
  unfold groupByPriority
  rw [hg2]
  dsimp only
  rw [hc, hh, hm, hl]

lemma groupByPriority_err (agents : List Agent) (a : Agent) (ha : a ∈ agents)
    (h1 : recognizedPriority a.priority = false)
    (h2 : a.priority ∈ objectProtoMembers) :
    groupByPriority agents = Except.error protoTypeError := by
  unfold groupByPriority
  rw [pushAll_err agents ⟨[], [], [], []⟩ ⟨a, ha, h1, h2⟩]

/-- When the grouping succeeds, `executeAgents` is exactly one settled
entry per kept worker, in order. -/
lemma executeAgents_ok (agents : List Agent)
    (run : Agent → Except (List Char) ExecResult) (gs : List (List Agent))
    (h : groupByPriority agents = Except.ok gs) :
    executeAgents agents run
      = Except.ok ((keptWorkers agents).map (settleEntry run)) := by
  by_cases he : agents.isEmpty
  · rw [List.isEmpty_iff] at he
    subst he
    rfl
  · unfold executeAgents keptWorkers
    rw [if_neg he, h]
    dsimp only
    congr 1
    rw [foldl_append_acc
        (fun (g : List Agent) => (g.take (maxConcurrencyOf agents)).map (settleEntry run))
        gs []]
    rw [foldl_append_acc (fun (g : List Agent) => g.take (maxConcurrencyOf agents)) gs []]
    simp only [List.nil_append]
    rw [flatten_map_map, List.map_map]
    have hfun :
        (List.map (settleEntry run) ∘ fun (g : List Agent) => g.take (maxConcurrencyOf agents))
          = fun (g : List Agent) => (g.take (maxConcurrencyOf agents)).map (settleEntry run) := by
      funext g
      simp [Function.comp]
    rw [hfun]

/-- When the grouping throws, the whole call rejects with that error. -/
lemma executeAgents_err (agents : List Agent)
    (run : Agent → Except (List Char) ExecResult) (e : List Char)
    (hne : agents.isEmpty = false) (h : groupByPriority agents = Except.error e) :
    executeAgents agents run = Except.error e := by
  unfold executeAgents
  rw [if_neg (by simp [hne]), h]

/-- Dropping empty groups does not change the concatenation of per-group
takes. -/
lemma flatten_take_filter_nonempty (c : Nat) :
    ∀ (gs : List (List Agent)),
      ((gs.filter (fun g => !g.isEmpty)).map (fun g => g.take c)).flatten
        = (gs.map (fun g => g.take c)).flatten := by
  intro gs
  induction gs with
  | nil => rfl
  | cons g gs ih =>
    by_cases h : g.isEmpty
    · rw [List.isEmpty_iff] at h
      subst h
      simpa using ih
    · simp only [List.filter_cons]
      simp only [h, Bool.not_false, if_pos]
      simp [ih]

/-- `keptWorkers` spelled out under a successful grouping: per tier, the
first `maxConcurrency` workers, tiers in the fixed order. -/
lemma keptWorkers_eq (agents : List Agent) (h : prototypeSafe agents = true) :
    keptWorkers agents =
      (agents.filter (fun a => a.priority = "critical".data)).take (maxConcurrencyOf agents)
      ++ (agents.filter (fun a => a.priority = "high".data)).take (maxConcurrencyOf agents)
      ++ (agents.filter mediumDefault).take (maxConcurrencyOf agents)
      ++ (agents.filter (fun a => a.priority = "low".data)).take (maxConcurrencyOf agents) := by
  unfold keptWorkers
  rw [groupByPriority_ok_of_safe agents h]
  dsimp only
  rw [foldl_append_acc (fun (g : List Agent) => g.take (maxConcurrencyOf agents)) _ []]
  rw [flatten_take_filter_nonempty]
  simp [List.append_assoc]

/-! ## Claims C1, C2, C7, C8, C10 -/

/-- C1 (amended): when no worker's priority names an `Object.prototype`
member (otherwise the bucket lookup throws a `TypeError` and the whole
call rejects), `executeAgents` returns exactly one `ExecutionResult` per
*kept* worker — per tier, the first `min(totalWorkers, 4)` workers —
ordered by tier (critical, high, medium-with-defaults, low) and within
each tier by input order; workers beyond the per-tier concurrency cap
are silently dropped.  For the kept workers no failure removes an entry:
a rejected run settles to an entry with `error` populated and `issues`
empty. -/
theorem executeAll_per_worker_amended :
    ∀ (agents : List Agent) (run : Agent → Except (List Char) ExecResult),
      (prototypeSafe agents = true →
        executeAgents agents run
          = Except.ok ((keptWorkers agents).map (settleEntry run))
        ∧ keptWorkers agents =
            (agents.filter (fun a => a.priority = "critical".data)).take
              (maxConcurrencyOf agents)
            ++ (agents.filter (fun a => a.priority = "high".data)).take
              (maxConcurrencyOf agents)
            ++ (agents.filter mediumDefault).take (maxConcurrencyOf agents)
            ++ (agents.filter (fun a => a.priority = "low".data)).take
              (maxConcurrencyOf agents))
      ∧ (∀ a e, run a = Except.error e →
          (settleEntry run a).issues = []
          ∧ (settleEntry run a).error = some (sanitizeErrorMsg e)) := by
  intro agents run
  constructor
  · intro hsafe
    exact ⟨executeAgents_ok agents run _ (groupByPriority_ok_of_safe agents hsafe),
      keptWorkers_eq agents hsafe⟩
  · intro a e h
    simp [settleEntry, h]

/-- C1 witness: the per-kept-worker result list and the failure-isolation
conjunct at a concrete worker with a concretely rejected run. -/
theorem executeAll_per_worker_amended_witness :
    executeAgents [secAgent] runErrBoom
      = Except.ok ((keptWorkers [secAgent]).map (settleEntry runErrBoom))
    ∧ (settleEntry runErrBoom secAgent).issues = []
    ∧ (settleEntry runErrBoom secAgent).error = some (sanitizeErrorMsg "boom".data) :=
  ⟨((executeAll_per_worker_amended [secAgent] runErrBoom).1 (by decide)).1,
   ((executeAll_per_worker_amended [secAgent] runErrBoom).2 secAgent "boom".data rfl).1,
   ((executeAll_per_worker_amended [secAgent] runErrBoom).2 secAgent "boom".data rfl).2⟩

/-- C1 counterexample: five critical-tier workers produce only four
results — the fifth worker has no entry at all, refuting "exactly one
ExecutionResult per input worker". -/
theorem executeAll_cap_counterexample :
    fiveCrit.length = 5
    ∧ executeAgents fiveCrit runOk = Except.ok ((fiveCrit.take 4).map simpleResult)
    ∧ ((fiveCrit.take 4).map simpleResult).length = 4 := by
  refine ⟨by decide, ?_, by decide⟩
  rfl

/-- C2: `executeAgents` never consults or populates the `ResultCache`:
its result is determined by the live per-call run outcome alone (there is
no cache in the execution path), so a second identical call launches the
worker's sandbox again instead of being served from cache — two calls
that only differ in the sandbox outcome give different results. -/
theorem executeAgents_no_cache_consult :
    (∀ run : Agent → Except (List Char) ExecResult,
      executeAgents [secAgent] run = Except.ok [settleEntry run secAgent])
    ∧ executeAgents [secAgent] (fun _ => Except.ok resA)
        ≠ executeAgents [secAgent] (fun _ => Except.ok resB) := by
  constructor
  · intro run
    have h : groupByPriority [secAgent] = Except.ok [[secAgent]] := rfl
    rw [executeAgents_ok [secAgent] run [[secAgent]] h]
    have hk : keptWorkers [secAgent] = [secAgent] := rfl
    rw [hk]
    rfl
  · intro hEq
    rw [show executeAgents [secAgent] (fun _ => Except.ok resA)
          = Except.ok [resA] from rfl] at hEq
    rw [show executeAgents [secAgent] (fun _ => Except.ok resB)
          = Except.ok [resB] from rfl] at hEq
    injection hEq with h2
    exact absurd h2 (by decide)

/-- C7: `AgentSandbox.execute` never throws — any exception in steps 1–5
(modelled as an `Except.error` outcome) is converted into an
`ExecutionResult` with `error` populated (the sanitised message) and
`issues` empty. -/
theorem sandbox_never_throws :
    ∀ (agent : Agent) (e : List Char) (elapsed : Nat) (sid : List Char),
      (AgentSandbox.execute agent (Except.error e) elapsed sid).issues = []
      ∧ (AgentSandbox.execute agent (Except.error e) elapsed sid).error
          = some (sanitizeErrorMsg e) := by
  intro agent e elapsed sid
  exact ⟨rfl, rfl⟩

/-- C8: for every command not in the static allow-list,
`SecurityUtils.executeCommand` fails with the rejection error and the
spawn primitive is never invoked (the spawn counter is unchanged). -/
theorem commandGuard_allowlist :
    ∀ (cmd : List Char) (args : List (List Char)) (cwd : List Char)
      (base : List (List Char))
      (spawn : List Char → List (List Char) → Except (List Char) SpawnOut)
      (n : Nat),
      cmd ∉ ALLOWED_COMMANDS →
        (executeCommand cmd args cwd base spawn n).1
          = Except.error ("許可されていないコマンド: ".data ++ cmd)
        ∧ (executeCommand cmd args cwd base spawn n).2 = n := by
  intro cmd args cwd base spawn n h
  unfold executeCommand
  rw [if_neg h]
  exact ⟨rfl, rfl⟩

/-- C8 witness: `rm` is rejected and the spawn counter stays at 3. -/
theorem commandGuard_allowlist_witness :
    (executeCommand "rm".data [] "x".data []
        (fun _ _ => Except.ok ⟨[], []⟩) 3).1
      = Except.error ("許可されていないコマンド: ".data ++ "rm".data)
    ∧ (executeCommand "rm".data [] "x".data []
        (fun _ _ => Except.ok ⟨[], []⟩) 3).2 = 3 :=
  commandGuard_allowlist "rm".data [] "x".data []
    (fun _ _ => Except.ok ⟨[], []⟩) 3 (by decide)

/-- C10 (amended): a worker with an unrecognized priority that does not
name an `Object.prototype` member is not rejected: `groupByPriority`
silently places it into the medium bucket, and whenever it is among the
kept workers (the first `maxConcurrency` of that tier) its settled entry
appears in the successful result list; like any other worker it is
silently dropped when it falls beyond the per-tier cap.  A worker whose
priority *does* name an `Object.prototype` member (`toString`, `valueOf`,
`constructor`, ...) makes `groups[priority]` truthy with no `push`
method, so the whole `executeAgents` call rejects with a `TypeError`. -/
theorem unknown_priority_medium_amended :
    ∀ (agents : List Agent) (run : Agent → Except (List Char) ExecResult)
      (a : Agent),
      a ∈ agents → recognizedPriority a.priority = false →
        (prototypeSafe agents = true →
          (∃ gs, groupByPriority agents = Except.ok gs
            ∧ agents.filter mediumDefault ∈ gs
            ∧ a ∈ agents.filter mediumDefault)
          ∧ (a ∈ keptWorkers agents →
              executeAgents agents run
                = Except.ok ((keptWorkers agents).map (settleEntry run))
              ∧ settleEntry run a ∈ (keptWorkers agents).map (settleEntry run)))
        ∧ (a.priority ∈ objectProtoMembers →
            executeAgents agents run = Except.error protoTypeError) := by
  intro agents run a ha hp
  constructor
  · intro hsafe
    have hap : a.priority ∉ objectProtoMembers := by
      have := List.all_eq_true.mp hsafe a ha
      simpa using this
    have hmem : a ∈ agents.filter mediumDefault := by
      rw [List.mem_filter]
      refine ⟨ha, ?_⟩
      simp [mediumDefault, hp, hap]
    constructor
    · refine ⟨_, groupByPriority_ok_of_safe agents hsafe, ?_, hmem⟩
      have hne : (agents.filter mediumDefault).isEmpty = false := by
        cases hf : (agents.filter mediumDefault).isEmpty
        · rfl
        · rw [List.isEmpty_iff] at hf
          rw [hf] at hmem
          cases hmem
      rw [List.mem_filter]
      exact ⟨by simp, by simp [hne]⟩
    · intro hk
      exact ⟨executeAgents_ok agents run _ (groupByPriority_ok_of_safe agents hsafe),
        List.mem_map_of_mem _ hk⟩
  · intro hproto
    have hne : agents.isEmpty = false := by
      cases hf : agents.isEmpty
      · rfl
      · rw [List.isEmpty_iff] at hf
        rw [hf] at ha
        cases ha
    exact executeAgents_err agents run protoTypeError hne
      (groupByPriority_err agents a ha hp hproto)

/-- C10 witness: the medium-default branch at a concrete mistyped worker
and the `TypeError` branch at a concrete prototype-member priority. -/
theorem unknown_priority_medium_amended_witness :
    ((∃ gs, groupByPriority bogusAgents = Except.ok gs
        ∧ bogusAgents.filter mediumDefault ∈ gs
        ∧ mkAgent "b1".data "bogus".data ∈ bogusAgents.filter mediumDefault)
      ∧ (mkAgent "b1".data "bogus".data ∈ keptWorkers bogusAgents →
          executeAgents bogusAgents runOk
            = Except.ok ((keptWorkers bogusAgents).map (settleEntry runOk))
          ∧ settleEntry runOk (mkAgent "b1".data "bogus".data)
              ∈ (keptWorkers bogusAgents).map (settleEntry runOk)))
    ∧ executeAgents [mkAgent "t1".data "toString".data] runOk
        = Except.error protoTypeError :=
  ⟨(unknown_priority_medium_amended bogusAgents runOk
      (mkAgent "b1".data "bogus".data) (by decide) (by decide)).1 (by decide),
   (unknown_priority_medium_amended [mkAgent "t1".data "toString".data] runOk
      (mkAgent "t1".data "toString".data) (by decide) (by decide)).2 (by decide)⟩

/-- C10 counterexample: a worker whose priority is the unrecognized
string `toString` is not defaulted to medium — the whole call rejects
with a `TypeError`; and even for a harmless unrecognized priority, with
five such workers the fifth is dropped by the concurrency cap.  Both
refute "executeAll does not reject or drop the worker". -/
theorem unknown_priority_drop_counterexample :
    recognizedPriority "toString".data = false
    ∧ executeAgents [mkAgent "p1".data "toString".data] runOk
        = Except.error protoTypeError
    ∧ bogusAgents.length = 5
    ∧ executeAgents bogusAgents runOk
        = Except.ok ((bogusAgents.take 4).map simpleResult)
    ∧ ((bogusAgents.take 4).map simpleResult).length = 4
    ∧ recognizedPriority "bogus".data = false := by
  refine ⟨by decide, ?_, by decide, ?_, by decide, by decide⟩ <;> rfl

/-! ## Claim C5: sanitizer idempotence -/

lemma escapeChar_length_pos (c : Char) : 1 ≤ (escapeChar c).length := by
  unfold escapeChar
  repeat' split
  all_goals simp

lemma escapeHtml_length_le (s : List Char) : s.length ≤ (escapeHtml s).length := by
  induction s with
  | nil => simp [escapeHtml]
  | cons c t ih =>
    have := escapeChar_length_pos c
    simp only [escapeHtml, List.length_append, List.length_cons]
    omega

lemma escapeChar_of_not_special (c : Char) (h : isHtmlSpecial c = false) :
    escapeChar c = [c] := by
  unfold isHtmlSpecial at h
  unfold escapeChar
  repeat' split
  all_goals simp_all

lemma escapeHtml_of_not_special (s : List Char) (h : hasHtmlSpecial s = false) :
    escapeHtml s = s := by
  induction s with
  | nil => rfl
  | cons c t ih =>
    simp only [hasHtmlSpecial, List.any_cons, Bool.or_eq_false_iff] at h
    simp only [escapeHtml]
    rw [escapeChar_of_not_special c h.1, ih h.2]
    rfl

lemma amp_mem_escapeChar (c : Char) (h : isHtmlSpecial c = true) :
    '&' ∈ escapeChar c := by
  unfold isHtmlSpecial at h
  unfold escapeChar
  repeat' split
  all_goals try decide
  all_goals simp_all

lemma amp_mem_escapeHtml (s : List Char) (h : hasHtmlSpecial s = true) :
    '&' ∈ escapeHtml s := by
  induction s with
  | nil => cases h
  | cons c t ih =>
    simp only [hasHtmlSpecial, List.any_cons, Bool.or_eq_true] at h
    simp only [escapeHtml, List.mem_append]
    rcases h with h | h
    · exact Or.inl (amp_mem_escapeChar c h)
    · exact Or.inr (ih h)

lemma escapeHtml_longer_of_amp (s : List Char) (h : '&' ∈ s) :
    s.length < (escapeHtml s).length := by
  induction s with
  | nil => cases h
  | cons c t ih =>
    rcases List.mem_cons.mp h with h | h
    · subst h
      have ht := escapeHtml_length_le t
      have hlen : (escapeChar '&').length = 5 := rfl
      simp only [escapeHtml, List.length_append, List.length_cons, hlen]
      omega
    · have hc := escapeChar_length_pos c
      have := ih h
      simp only [escapeHtml, List.length_append, List.length_cons]
      omega

/-- C5 (amended): the composite sanitizer is not idempotent because its
final HTML-escaping step double-escapes: a second application of
`escapeHtml` leaves the string unchanged exactly when the input contains
none of the five HTML-special characters (whenever escaping actually
replaced something, the output contains `&` and re-escaping grows it). -/
theorem sanitize_idempotent_amended :
    ∀ s : List Char,
      escapeHtml (escapeHtml s) = escapeHtml s ↔ hasHtmlSpecial s = false := by
  intro s
  constructor
  · intro h
    cases hx : hasHtmlSpecial s with
    | false => rfl
    | true =>
      have hamp := amp_mem_escapeHtml s hx
      have hlt := escapeHtml_longer_of_amp (escapeHtml s) hamp
      rw [h] at hlt
      exact absurd hlt (lt_irrefl _)
  · intro h
    rw [escapeHtml_of_not_special s h]
    exact escapeHtml_of_not_special s h

/-- C5 counterexample: `sanitize` is not idempotent — on `"&"` the first
pass yields `"&amp;"` and the second `"&amp;amp;"`. -/
theorem sanitize_idempotent_counterexample :
    sanitizeText (sanitizeText "&".data) ≠ sanitizeText "&".data
    ∧ sanitizeText "&".data = "&amp;".data
    ∧ sanitizeText (sanitizeText "&".data) = "&amp;amp;".data := by
  decide

/-! ## Claim C3: path validation -/

lemma isPrefixOf_append_self (l t : List Char) : l.isPrefixOf (l ++ t) = true := by
  induction l with
  | nil => simp [List.isPrefixOf]
  | cons a l ih => simp [List.isPrefixOf, ih]

lemma isPrefixOf_append_of (l : List Char) :
    ∀ s t, l.isPrefixOf s = true → l.isPrefixOf (s ++ t) = true := by
  induction l with
  | nil => intro s t _; simp [List.isPrefixOf]
  | cons a l ih =>
    intro s t h
    cases s with
    | nil => simp [List.isPrefixOf] at h
    | cons b s =>
      simp only [List.isPrefixOf, Bool.and_eq_true] at h ⊢
      exact ⟨h.1, ih s t h.2⟩

lemma containsSub_nil_left (t : List Char) : containsSub [] t = true := by
  cases t <;> simp [containsSub, List.isPrefixOf]

lemma containsSub_of_left (d : List Char) :
    ∀ s t, containsSub d s = true → containsSub d (s ++ t) = true := by
  intro s
  induction s with
  | nil =>
    intro t h
    simp only [containsSub, List.isEmpty_iff] at h
    subst h
    exact containsSub_nil_left t
  | cons c s ih =>
    intro t h
    simp only [containsSub, Bool.or_eq_true] at h ⊢
    rcases h with h | h
    · exact Or.inl (isPrefixOf_append_of d (c :: s) t h)
    · exact Or.inr (ih t h)

lemma containsSub_of_right (d : List Char) :
    ∀ s t, containsSub d t = true → containsSub d (s ++ t) = true := by
  intro s
  induction s with
  | nil => intro t h; simpa using h
  | cons c s ih =>
    intro t h
    simp only [List.cons_append, containsSub, Bool.or_eq_true]
    exact Or.inr (ih t h)

lemma containsSub_of_middle (d seg pre post : List Char)
    (h : containsSub d seg = true) :
    containsSub d (pre ++ seg ++ post) = true := by
  rw [List.append_assoc]
  exact containsSub_of_right d pre (seg ++ post) (containsSub_of_left d seg post h)

lemma splitSegsAux_infix :
    ∀ (cs : List Char) (cur : List Char) (seg : List Char),
      seg ∈ splitSegsAux cur cs →
        ∃ pre post, cur.reverse ++ cs = pre ++ seg ++ post := by
  intro cs
  induction cs with
  | nil =>
    intro cur seg h
    simp only [splitSegsAux, List.mem_singleton] at h
    subst h
    exact ⟨[], [], by simp⟩
  | cons c rest ih =>
    intro cur seg h
    simp only [splitSegsAux] at h
    by_cases hc : c = '/'
    · rw [if_pos hc] at h
      rcases List.mem_cons.mp h with h | h
      · subst h
        exact ⟨[], c :: rest, by simp⟩
      · obtain ⟨pre, post, hp⟩ := ih [] seg h
        simp only [List.reverse_nil, List.nil_append] at hp
        refine ⟨cur.reverse ++ c :: pre, post, ?_⟩
        rw [hp]
        simp [List.append_assoc]
    · rw [if_neg hc] at h
      obtain ⟨pre, post, hp⟩ := ih (c :: cur) seg h
      refine ⟨pre, post, ?_⟩
      rw [List.reverse_cons, List.append_assoc] at hp
      simpa using hp

lemma splitSegs_no_dd (p : List Char) (h : containsSub "..".data p = false) :
    ∀ seg ∈ splitSegs p, containsSub "..".data seg = false ∧ seg ≠ "..".data := by
  intro seg hseg
  have hmem : seg ∈ splitSegsAux [] p := (List.mem_filter.mp hseg).1
  obtain ⟨pre, post, hp⟩ := splitSegsAux_infix p [] seg hmem
  simp only [List.reverse_nil, List.nil_append] at hp
  constructor
  · cases hx : containsSub "..".data seg
    · rfl
    · exfalso
      have := containsSub_of_middle "..".data seg pre post hx
      rw [← hp] at this
      rw [this] at h
      cases h
  · intro hEq
    subst hEq
    have : containsSub "..".data "..".data = true := by decide
    have h2 := containsSub_of_middle "..".data "..".data pre post this
    rw [← hp] at h2
    rw [h2] at h
    cases h

lemma resolveFold_no_dd :
    ∀ (segs : List (List Char)) (base : List (List Char)),
      (∀ s ∈ segs, s ≠ "..".data) →
      segs.foldl
        (fun acc seg =>
          if seg = ".".data then acc
          else if seg = "..".data then acc.dropLast
          else acc ++ [seg])
        base
      = base ++ segs.filter (fun s => !(s = ".".data : Bool)) := by
  intro segs
  induction segs with
  | nil => intro base _; simp
  | cons s segs ih =>
    intro base h
    have hs : s ≠ "..".data := h s (List.mem_cons_self s segs)
    have hrest : ∀ x ∈ segs, x ≠ "..".data := fun x hx => h x (List.mem_cons_of_mem s hx)
    simp only [List.foldl_cons, List.filter_cons]
    by_cases hdot : s = ".".data
    · rw [if_pos hdot]
      simp only [hdot, decide_True, Bool.not_true]
      simpa using ih base hrest
    · rw [if_neg hdot, if_neg hs]
      have : (!(s = ".".data : Bool)) = true := by simp [hdot]
      rw [this]
      simp only [if_pos]
      rw [ih (base ++ [s]) hrest]
      simp [List.append_assoc]

lemma resolveSegs_no_dd (base : List (List Char)) (p : List Char)
    (h : containsSub "..".data p = false) :
    resolveSegs base p = base ++ (splitSegs p).filter (fun s => !(s = ".".data : Bool)) := by
  unfold resolveSegs
  exact resolveFold_no_dd (splitSegs p) base (fun s hs => (splitSegs_no_dd p h s hs).2)

lemma joinSegs_append_ex (xs ys : List (List Char)) :
    ∃ suffix, joinSegs (xs ++ ys) = joinSegs xs ++ suffix := by
  induction xs with
  | nil => exact ⟨joinSegs ys, by simp [joinSegs]⟩
  | cons x xs ih =>
    cases xs with
    | nil =>
      cases ys with
      | nil => exact ⟨[], by simp [joinSegs]⟩
      | cons y t => exact ⟨'/' :: joinSegs (y :: t), by simp [joinSegs]⟩
    | cons x2 xs2 =>
      obtain ⟨s0, hs0⟩ := ih
      refine ⟨s0, ?_⟩
      have h1 : joinSegs (x :: ((x2 :: xs2) ++ ys)) = x ++ '/' :: joinSegs ((x2 :: xs2) ++ ys) := rfl
      have h2 : joinSegs (x :: x2 :: xs2) = x ++ '/' :: joinSegs (x2 :: xs2) := rfl
      rw [List.cons_append, h1, h2, hs0]
      simp [List.append_assoc]

lemma dd_split (t : List Char) :
    ∀ s, containsSub "..".data (s ++ '/' :: t) = true →
      containsSub "..".data s = true ∨ containsSub "..".data t = true := by
  intro s
  induction s with
  | nil =>
    intro h
    simp only [List.nil_append, containsSub, Bool.or_eq_true] at h
    rcases h with h | h
    · simp [List.isPrefixOf] at h
    · exact Or.inr h
  | cons c s ih =>
    intro h
    simp only [List.cons_append, containsSub, Bool.or_eq_true] at h
    rcases h with h | h
    · -- a prefix match starting at `c`: forces `c = '.'` and the next
      -- character of `s ++ '/' :: t` to be `'.'`, which cannot be the
      -- separator, so the match lies inside `c :: s`.
      cases s with
      | nil =>
        simp [List.isPrefixOf] at h
      | cons d s2 =>
        simp only [List.cons_append, List.isPrefixOf, Bool.and_eq_true] at h
        left
        simp only [containsSub, List.isPrefixOf, Bool.or_eq_true, Bool.and_eq_true]
        exact Or.inl ⟨h.1, h.2.1, by simp [List.isPrefixOf]⟩

    · rcases ih h with h2 | h2
      · left
        simp only [containsSub, Bool.or_eq_true]
        exact Or.inr h2
      · exact Or.inr h2

lemma joinSegs_no_dd :
    ∀ (segs : List (List Char)),
      (∀ s ∈ segs, containsSub "..".data s = false) →
      containsSub "..".data (joinSegs segs) = false := by
  intro segs
  induction segs with
  | nil => intro _; rfl
  | cons x xs ih =>
    intro h
    cases xs with
    | nil => exact h x (List.mem_singleton.mpr rfl)
    | cons x2 xs2 =>
      show containsSub "..".data (x ++ '/' :: joinSegs (x2 :: xs2)) = false
      cases hx : containsSub "..".data (x ++ '/' :: joinSegs (x2 :: xs2))
      · rfl
      · exfalso
        rcases dd_split (joinSegs (x2 :: xs2)) x hx with h2 | h2
        · rw [h x (List.mem_cons_self x (x2 :: xs2))] at h2
          cases h2
        · rw [ih (fun s hs => h s (List.mem_cons_of_mem x hs))] at h2
          cases h2

lemma ddSlash_no (rel : List Char) (h : containsSub "..".data rel = false) :
    "../".data.isPrefixOf rel = false := by
  cases hx : "../".data.isPrefixOf rel
  · rfl
  · exfalso
    cases rel with
    | nil => simp [List.isPrefixOf] at hx
    | cons a rel2 =>
      cases rel2 with
      | nil =>
        have : ("../".data).length ≤ ([a]).length := List.IsPrefix.length_le
          (List.isPrefixOf_iff_prefix.mp hx)
        simp at this
      | cons b rel3 =>
        simp only [List.isPrefixOf, Bool.and_eq_true] at hx
        have : containsSub "..".data (a :: b :: rel3) = true := by
          simp only [containsSub, List.isPrefixOf, Bool.or_eq_true, Bool.and_eq_true]
          exact Or.inl ⟨hx.1, hx.2.1, by simp [List.isPrefixOf]⟩
        rw [this] at h
        cases h

/-- C3 (amended): `validatePath` rejects every candidate containing a
traversal segment (`..`), a home-reference marker (`~`) or a NUL byte —
and, with the resolution model, a candidate surviving the pattern check
always resolves under the base, so a path resolving outside the root is
always rejected by the pattern check.  The success direction holds only
on the smaller set the source actually accepts: candidates that avoid the
*entire* extended deny-list (`dangerousPattern`: absolute prefixes,
`<>|*?"` symbols, executable extensions such as `.js`, reserved device
names, control characters, consecutive separators) and whose resolved
form is at most 260 characters; those return the resolved path, which
extends the resolved root. -/
theorem validatePath_amended :
    ∀ (p : List Char) (base : List (List Char)),
      ((containsSub "..".data p = true ∨ p.any (fun c => c = '~') = true
          ∨ p.any (fun c => c.toNat = 0) = true) →
        ∃ msg, validatePath p base = Except.error msg)
      ∧ (p.isEmpty = false → dangerousPattern p = false →
          (renderAbs (resolveSegs base p)).length ≤ 260 →
          validatePath p base = Except.ok (renderAbs (resolveSegs base p))
          ∧ (renderAbs base).isPrefixOf (renderAbs (resolveSegs base p)) = true) := by
  intro p base
  constructor
  · intro h
    by_cases hp : p.isEmpty
    · exact ⟨_, by unfold validatePath; rw [if_pos hp]⟩
    · have hd : dangerousPattern p = true := by
        unfold dangerousPattern
        rcases h with h | h | h <;> simp [h]
      exact ⟨_, by unfold validatePath; rw [if_neg hp, if_pos hd]⟩
  · intro hne hdang hlen
    have hdd : containsSub "..".data p = false := by
      cases hx : containsSub "..".data p
      · rfl
      · exfalso
        unfold dangerousPattern at hdang
        simp [hx] at hdang
    have hres := resolveSegs_no_dd base p hdd
    obtain ⟨suffix, hsuf⟩ :=
      joinSegs_append_ex base ((splitSegs p).filter (fun s => !(s = ".".data : Bool)))
    have hpre : (renderAbs base).isPrefixOf (renderAbs (resolveSegs base p)) = true := by
      rw [hres]
      unfold renderAbs
      rw [hsuf]
      simp only [List.isPrefixOf, Bool.and_eq_true]
      exact ⟨by simp, isPrefixOf_append_self (joinSegs base) suffix⟩
    have hreldd :
        containsSub "..".data
          (joinSegs ((resolveSegs base p).drop base.length)) = false := by
      rw [hres, List.drop_left]
      exact joinSegs_no_dd _
        (fun s hs => (splitSegs_no_dd p hdd s (List.mem_filter.mp hs).1).1)
    refine ⟨?_, hpre⟩
    unfold validatePath
    rw [if_neg (by simp [hne]), if_neg (by simp [hdang])]
    simp only
    rw [if_neg (by simp [hpre])]
    rw [if_neg (by
      simp only [Bool.or_eq_true, not_or]
      exact ⟨by simp [hreldd], by simp [ddSlash_no _ hreldd]⟩)]
    rw [if_neg (by omega)]

/-- C3 witness: the amended success direction at the in-root candidate
`docs` under base `/prj`. -/
theorem validatePath_amended_witness :
    validatePath "docs".data [['p', 'r', 'j']]
        = Except.ok (renderAbs (resolveSegs [['p', 'r', 'j']] "docs".data))
    ∧ (renderAbs [['p', 'r', 'j']]).isPrefixOf
        (renderAbs (resolveSegs [['p', 'r', 'j']] "docs".data)) = true :=
  (validatePath_amended "docs".data [['p', 'r', 'j']]).2
    (by decide) (by decide) (by decide)

/-- C3 counterexample: `a.js` resolves strictly inside the root `/prj`,
yet `validatePath` rejects it (its extension matches the executable-file
deny pattern) — refuting "for every candidate path resolving strictly
within the root it succeeds". -/
theorem validatePath_within_root_counterexample :
    (renderAbs [['p', 'r', 'j']]).isPrefixOf
        (renderAbs (resolveSegs [['p', 'r', 'j']] "a.js".data)) = true
    ∧ renderAbs (resolveSegs [['p', 'r', 'j']] "a.js".data) ≠ renderAbs [['p', 'r', 'j']]
    ∧ validatePath "a.js".data [['p', 'r', 'j']]
        = Except.error ("不正なパス: 危険なパターンが検出されました - ".data ++ "a.js".data) := by
  refine ⟨by decide, by decide, ?_⟩
  rfl

/-! ## Claims C4 and C6: the ResultCache -/

lemma mapSet_get_self {A : Type} :
    ∀ (es : List (List Char × A)) (k : List Char) (v : A),
      mapGet (mapSet es k v) k = some v := by
  intro es
  induction es with
  | nil => intro k v; simp [mapSet, mapGet, List.find?]
  | cons e rest ih =>
    intro k v
    by_cases h : e.1 = k
    · simp [mapSet, h, mapGet, List.find?]
    · obtain ⟨k0, v0⟩ := e
      simp only at h
      simp only [mapSet, if_neg h, mapGet, List.find?]
      have : (decide (k0 = k)) = false := by simp [h]
      rw [this]
      exact ih k v

lemma evictOldest_heap {V : Type} (st : CacheSt V) (now : Nat) :
    (evictOldest st now).heap = st.heap := by
  unfold evictOldest
  cases evictLoop st.entries now <;> rfl

lemma getD_append_length {V : Type} [Inhabited V] :
    ∀ (l : List V) (v : V), (l ++ [v]).getD l.length default = v := by
  intro l
  induction l with
  | nil => intro v; rfl
  | cons x l ih => intro v; simp [List.getD]

lemma getD_set_ne {V : Type} [Inhabited V] :
    ∀ (l : List V) (r r' : Nat) (v : V), r ≠ r' →
      (l.set r v).getD r' default = l.getD r' default := by
  intro l
  induction l with
  | nil => intro r r' v _; simp
  | cons x l ih =>
    intro r r' v h
    cases r with
    | zero =>
      cases r' with
      | zero => exact absurd rfl h
      | succ r' => simp [List.getD]
    | succ r =>
      cases r' with
      | zero => simp [List.getD]
      | succ r' =>
        simp only [List.set, List.getD, List.get?]
        exact ih r r' v (fun hc => h (by rw [hc]))

lemma cacheSetKey_heap {V : Type} [Inhabited V] (st : CacheSt V)
    (k : List Char) (r now : Nat) :
    (cacheSetKey st k r now).heap.vals = st.heap.vals ++ [heapRead st.heap r] := by
  unfold cacheSetKey heapAlloc
  split
  · dsimp only
    rw [evictOldest_heap]
  · rfl

lemma cacheSetKey_entries {V : Type} [Inhabited V] (st : CacheSt V)
    (k : List Char) (r now : Nat) :
    (cacheSetKey st k r now).entries =
      mapSet (if CACHE_MAX_SIZE ≤ st.entries.length then
          (evictOldest st now).entries else st.entries)
        k ⟨st.heap.vals.length, now⟩ := by
  unfold cacheSetKey heapAlloc
  split
  · dsimp only
    rw [evictOldest_heap]
  · rfl

/-- C4 (amended): a `get` immediately after `put(k, r)` returns a fresh
reference `r'` — a deep copy: not the same object as `r`, holding an
equal value — and mutating the *original* `r` after the `put` does not
affect what is stored.  (The aliasing of the returned reference itself is
the counterexample part.) -/
theorem cache_copy_on_write_amended :
    ∀ (V : Type) [Inhabited V] (st : CacheSt V) (k : List Char) (r now : Nat),
      r < st.heap.vals.length →
        ∃ r', (cacheGetKey (cacheSetKey st k r now) k now).1 = some r'
          ∧ r' ≠ r
          ∧ heapRead (cacheSetKey st k r now).heap r' = heapRead st.heap r
          ∧ (∀ v, heapRead (heapWrite (cacheSetKey st k r now).heap r v) r'
              = heapRead st.heap r) := by
  intro V _ st k r now hr
  refine ⟨st.heap.vals.length, ?_, ?_, ?_, ?_⟩
  · unfold cacheGetKey
    rw [cacheSetKey_entries, mapSet_get_self]
    simp [CACHE_TTL]
  · omega
  · show (cacheSetKey st k r now).heap.vals.getD st.heap.vals.length default
        = heapRead st.heap r
    rw [cacheSetKey_heap]
    exact getD_append_length st.heap.vals (heapRead st.heap r)
  · intro v
    show ((cacheSetKey st k r now).heap.vals.set r v).getD st.heap.vals.length default
        = heapRead st.heap r
    rw [getD_set_ne _ r st.heap.vals.length v (by omega)]
    rw [cacheSetKey_heap]
    exact getD_append_length st.heap.vals (heapRead st.heap r)

/-- C4 witness: the amended statement at the concrete one-object state. -/
theorem cache_copy_on_write_amended_witness :
    ∃ r', (cacheGetKey (cacheSetKey stC4 "k".data 0 100) "k".data 100).1 = some r'
      ∧ r' ≠ 0
      ∧ heapRead (cacheSetKey stC4 "k".data 0 100).heap r' = heapRead stC4.heap 0
      ∧ (∀ v, heapRead (heapWrite (cacheSetKey stC4 "k".data 0 100).heap 0 v) r'
          = heapRead stC4.heap 0) :=
  cache_copy_on_write_amended Nat stC4 "k".data 0 100 (by decide)

/-- C4 counterexample: `get` returns the *stored* reference (no copy on
read): after `put(k, ·)` the `get` yields reference `1` holding `7`;
mutating that returned object to `42` makes the next `get` return the
same reference `1`, now reading `42` — so mutating the value returned by
`get(k)` does change what a subsequent `get(k)` returns. -/
theorem cache_get_aliasing_counterexample :
    (cacheGetKey (cacheSetKey stC4 "k".data 0 100) "k".data 100).1 = some 1
    ∧ heapRead (cacheSetKey stC4 "k".data 0 100).heap 1 = 7
    ∧ heapRead (heapWrite (cacheSetKey stC4 "k".data 0 100).heap 1 42) 1 = 42
    ∧ (cacheGetKey (⟨heapWrite (cacheSetKey stC4 "k".data 0 100).heap 1 42,
        (cacheSetKey stC4 "k".data 0 100).entries⟩ : CacheSt Nat) "k".data 100).1
        = some 1 := by
  decide

lemma evictFold_snd_le :
    ∀ (es : List (List Char × CacheEntry)) (acc : Option (List Char) × Nat),
      (es.foldl evictStep acc).2 ≤ acc.2 := by
  intro es
  induction es with
  | nil => intro acc; exact le_refl _
  | cons e rest ih =>
    intro acc
    have h1 := ih (evictStep acc e)
    have h2 : (evictStep acc e).2 ≤ acc.2 := by
      unfold evictStep
      split
      · omega
      · exact le_refl _
    calc (List.foldl evictStep (evictStep acc e) rest).2
        ≤ (evictStep acc e).2 := h1
      _ ≤ acc.2 := h2

lemma evictFold_min :
    ∀ (es : List (List Char × CacheEntry)) (acc : Option (List Char) × Nat)
      (e : List Char × CacheEntry), e ∈ es →
      (es.foldl evictStep acc).2 ≤ e.2.timestamp := by
  intro es
  induction es with
  | nil => intro acc e h; cases h
  | cons x rest ih =>
    intro acc e h
    rcases List.mem_cons.mp h with h | h
    · subst h
      have h1 := evictFold_snd_le rest (evictStep acc e)
      have h2 : (evictStep acc e).2 ≤ e.2.timestamp := by
        unfold evictStep
        split
        · exact le_refl _
        · omega
      calc (List.foldl evictStep (evictStep acc e) rest).2
          ≤ (evictStep acc e).2 := h1
        _ ≤ e.2.timestamp := h2
    · exact ih (evictStep acc x) e h

lemma evictFold_spec :
    ∀ (es : List (List Char × CacheEntry)) (acc : Option (List Char) × Nat),
      (es.foldl evictStep acc = acc ∧ ∀ e ∈ es, acc.2 ≤ e.2.timestamp)
      ∨ (∃ e ∈ es, (es.foldl evictStep acc).1 = some e.1
          ∧ (es.foldl evictStep acc).2 = e.2.timestamp) := by
  intro es
  induction es with
  | nil => intro acc; exact Or.inl ⟨rfl, by intro e h; cases h⟩
  | cons x rest ih =>
    intro acc
    by_cases hx : x.2.timestamp < acc.2
    · have hs : evictStep acc x = (some x.1, x.2.timestamp) := by
        unfold evictStep; rw [if_pos hx]
      rcases ih (evictStep acc x) with ⟨h1, _⟩ | ⟨e, he, h1, h2⟩
      · refine Or.inr ⟨x, List.mem_cons_self x rest, ?_, ?_⟩
        · show (List.foldl evictStep (evictStep acc x) rest).1 = some x.1
          rw [h1, hs]
        · show (List.foldl evictStep (evictStep acc x) rest).2 = x.2.timestamp
          rw [h1, hs]
      · exact Or.inr ⟨e, List.mem_cons_of_mem x he, h1, h2⟩
    · have hs : evictStep acc x = acc := by
        unfold evictStep; rw [if_neg hx]
      rcases ih (evictStep acc x) with ⟨h1, h2⟩ | ⟨e, he, h1, h2⟩
      · refine Or.inl ⟨?_, ?_⟩
        · show List.foldl evictStep (evictStep acc x) rest = acc
          rw [h1, hs]
        · intro e he
          rcases List.mem_cons.mp he with he | he
          · subst he; omega
          · rw [hs] at h2; exact h2 e he
      · exact Or.inr ⟨e, List.mem_cons_of_mem x he, h1, h2⟩

lemma evictLoop_picks_oldest (es : List (List Char × CacheEntry)) (now : Nat)
    (h : ∃ e ∈ es, e.2.timestamp < now) :
    ∃ eOld ∈ es, evictLoop es now = some eOld.1
      ∧ ∀ e' ∈ es, eOld.2.timestamp ≤ e'.2.timestamp := by
  obtain ⟨e0, he0, ht0⟩ := h
  rcases evictFold_spec es (none, now) with ⟨_, h2⟩ | ⟨e, he, h1, h2⟩
  · exact absurd (h2 e0 he0) (by omega)
  · refine ⟨e, he, h1, ?_⟩
    intro e' he'
    have := evictFold_min es (none, now) e' he'
    omega

lemma mapSet_length_le {A : Type} :
    ∀ (es : List (List Char × A)) (k : List Char) (v : A),
      (mapSet es k v).length ≤ es.length + 1 := by
  intro es
  induction es with
  | nil => intro k v; simp [mapSet]
  | cons e rest ih =>
    intro k v
    by_cases h : e.1 = k
    · obtain ⟨k0, v0⟩ := e
      simp only at h
      simp [mapSet, h]
    · obtain ⟨k0, v0⟩ := e
      simp only at h
      simp only [mapSet, if_neg h, List.length_cons]
      have := ih k v
      omega

lemma mapDelete_length {A : Type} :
    ∀ (es : List (List Char × A)) (k : List Char),
      (∃ e ∈ es, e.1 = k) → (mapDelete es k).length + 1 = es.length := by
  intro es
  induction es with
  | nil => intro k h; obtain ⟨e, he, _⟩ := h; cases he
  | cons x rest ih =>
    intro k h
    by_cases hx : x.1 = k
    · obtain ⟨k0, v0⟩ := x
      simp only at hx
      simp [mapDelete, hx]
    · obtain ⟨k0, v0⟩ := x
      simp only at hx
      simp only [mapDelete, if_neg hx, List.length_cons]
      obtain ⟨e, he, hek⟩ := h
      rcases List.mem_cons.mp he with he | he
      · exact absurd (by rw [he] at hek; exact hek) hx
      · rw [ih k ⟨e, he, hek⟩]

lemma mapSet_mem {A : Type} :
    ∀ (es : List (List Char × A)) (k : List Char) (v : A) (e : List Char × A),
      e ∈ mapSet es k v → e ∈ es ∨ e = (k, v) := by
  intro es
  induction es with
  | nil => intro k v e h; simp [mapSet] at h; exact Or.inr h
  | cons x rest ih =>
    intro k v e h
    by_cases hx : x.1 = k
    · obtain ⟨k0, v0⟩ := x
      simp only at hx
      simp only [mapSet, if_pos hx] at h
      rcases List.mem_cons.mp h with h | h
      · exact Or.inr h
      · exact Or.inl (List.mem_cons_of_mem _ h)
    · obtain ⟨k0, v0⟩ := x
      simp only at hx
      simp only [mapSet, if_neg hx] at h
      rcases List.mem_cons.mp h with h | h
      · exact Or.inl (h ▸ List.mem_cons_self _ _)
      · rcases ih k v e h with h | h
        · exact Or.inl (List.mem_cons_of_mem _ h)
        · exact Or.inr h

lemma mapDelete_subset {A : Type} :
    ∀ (es : List (List Char × A)) (k : List Char) (e : List Char × A),
      e ∈ mapDelete es k → e ∈ es := by
  intro es
  induction es with
  | nil => intro k e h; cases h
  | cons x rest ih =>
    intro k e h
    by_cases hx : x.1 = k
    · obtain ⟨k0, v0⟩ := x
      simp only at hx
      simp only [mapDelete, if_pos hx] at h
      exact List.mem_cons_of_mem _ h
    · obtain ⟨k0, v0⟩ := x
      simp only at hx
      simp only [mapDelete, if_neg hx] at h
      rcases List.mem_cons.mp h with h | h
      · exact h ▸ List.mem_cons_self _ _
      · exact List.mem_cons_of_mem _ (ih k e h)

lemma evictOldest_subset {V : Type} (st : CacheSt V) (now : Nat)
    (e : List Char × CacheEntry) (h : e ∈ (evictOldest st now).entries) :
    e ∈ st.entries := by
  unfold evictOldest at h
  cases hl : evictLoop st.entries now with
  | none => rw [hl] at h; exact h
  | some k => rw [hl] at h; exact mapDelete_subset st.entries k e h

lemma cacheSetKey_mem {V : Type} [Inhabited V] (st : CacheSt V)
    (k : List Char) (r now : Nat) (e : List Char × CacheEntry)
    (h : e ∈ (cacheSetKey st k r now).entries) :
    e ∈ st.entries ∨ e.2.timestamp = now := by
  rw [cacheSetKey_entries] at h
  rcases mapSet_mem _ k _ e h with h | h
  · by_cases hcap : CACHE_MAX_SIZE ≤ st.entries.length
    · rw [if_pos hcap] at h
      exact Or.inl (evictOldest_subset st now e h)
    · rw [if_neg hcap] at h
      exact Or.inl h
  · right
    rw [h]

lemma cacheSetKey_length {V : Type} [Inhabited V] (st : CacheSt V)
    (k : List Char) (r now : Nat)
    (hlen : st.entries.length ≤ CACHE_MAX_SIZE)
    (hts : ∀ e ∈ st.entries, e.2.timestamp < now) :
    (cacheSetKey st k r now).entries.length ≤ CACHE_MAX_SIZE := by
  rw [cacheSetKey_entries]
  by_cases hcap : CACHE_MAX_SIZE ≤ st.entries.length
  · rw [if_pos hcap]
    have hne : ∃ e ∈ st.entries, e.2.timestamp < now := by
      have : st.entries ≠ [] := by
        intro hnil
        rw [hnil] at hcap
        simp [CACHE_MAX_SIZE] at hcap
      obtain ⟨e, he⟩ := List.exists_mem_of_ne_nil st.entries this
      exact ⟨e, he, hts e he⟩
    obtain ⟨eOld, heOld, hloop, _⟩ := evictLoop_picks_oldest st.entries now hne
    unfold evictOldest
    rw [hloop]
    dsimp only
    have hdel : (mapDelete st.entries eOld.1).length + 1 = st.entries.length :=
      mapDelete_length st.entries eOld.1 ⟨eOld, heOld, rfl⟩
    have := mapSet_length_le (mapDelete st.entries eOld.1) k
      (⟨st.heap.vals.length, now⟩ : CacheEntry)
    omega
  · rw [if_neg hcap]
    have := mapSet_length_le st.entries k (⟨st.heap.vals.length, now⟩ : CacheEntry)
    omega

lemma runPuts_bounded {V : Type} [Inhabited V] :
    ∀ (ops : List (List Char × Nat × Nat)) (st : CacheSt V),
      st.entries.length ≤ CACHE_MAX_SIZE →
      (∀ e ∈ st.entries, ∀ op ∈ ops, e.2.timestamp < op.2.2) →
      List.Pairwise (fun a b => a.2.2 < b.2.2) ops →
      (runPuts st ops).entries.length ≤ CACHE_MAX_SIZE := by
  intro ops
  induction ops with
  | nil => intro st h _ _; exact h
  | cons op rest ih =>
    intro st hlen hts hpw
    have hts0 : ∀ e ∈ st.entries, e.2.timestamp < op.2.2 :=
      fun e he => hts e he op (List.mem_cons_self op rest)
    have hstep := cacheSetKey_length st op.1 op.2.1 op.2.2 hlen hts0
    have hpw' := List.pairwise_cons.mp hpw
    show (runPuts (cacheSetKey st op.1 op.2.1 op.2.2) rest).entries.length ≤ CACHE_MAX_SIZE
    apply ih
    · exact hstep
    · intro e he op' hop'
      rcases cacheSetKey_mem st op.1 op.2.1 op.2.2 e he with h | h
      · exact hts e h op' (List.mem_cons_of_mem op hop')
      · rw [h]
        exact hpw'.1 op' hop'
    · exact hpw'.2

/-- C6 (amended): under strictly increasing insertion timestamps the
cache respects its capacity — any sequence of `set` operations leaves at
most 100 entries — and an insertion at capacity first evicts exactly one
entry, one with the minimal insertion timestamp, before storing the new
entry.  (When every stored timestamp equals the current time, eviction
selects nothing and the capacity can be exceeded — the counterexample.) -/
theorem resultCache_capacity_amended :
    (∀ (ops : List (List Char × Nat × Nat)) (V : Type) [Inhabited V] (h0 : ObjHeap V),
      List.Pairwise (fun a b => a.2.2 < b.2.2) ops →
      (runPuts (⟨h0, []⟩ : CacheSt V) ops).entries.length ≤ CACHE_MAX_SIZE)
    ∧ (∀ (V : Type) [Inhabited V] (st : CacheSt V) (k : List Char) (r now : Nat),
        CACHE_MAX_SIZE ≤ st.entries.length →
        (∃ e ∈ st.entries, e.2.timestamp < now) →
        ∃ eOld ∈ st.entries,
          (∀ e' ∈ st.entries, eOld.2.timestamp ≤ e'.2.timestamp)
          ∧ (cacheSetKey st k r now).entries
              = mapSet (mapDelete st.entries eOld.1) k
                  (⟨st.heap.vals.length, now⟩ : CacheEntry)) := by
  constructor
  · intro ops V _ h0 hpw
    exact runPuts_bounded ops ⟨h0, []⟩ (by simp [CACHE_MAX_SIZE]) (by intro e he; cases he) hpw
  · intro V _ st k r now hcap hex
    obtain ⟨eOld, heOld, hloop, hmin⟩ := evictLoop_picks_oldest st.entries now hex
    refine ⟨eOld, heOld, hmin, ?_⟩
    rw [cacheSetKey_entries, if_pos hcap]
    unfold evictOldest
    rw [hloop]

/-- C6 witness: both conjuncts at concrete inputs — a two-op increasing
sequence stays within capacity, and a concrete at-capacity state evicts
its oldest entry. -/
theorem resultCache_capacity_amended_witness :
    (runPuts (⟨⟨[0]⟩, []⟩ : CacheSt Nat)
        [("a".data, 0, 5), ("b".data, 0, 6)]).entries.length ≤ CACHE_MAX_SIZE :=
  resultCache_capacity_amended.1 [("a".data, 0, 5), ("b".data, 0, 6)] Nat ⟨[0]⟩
    (by simp)

set_option maxRecDepth 40000 in
/-- C6 counterexample: 101 distinct keys inserted at the same timestamp
leave 101 entries — the eviction loop starts its comparison at the
current time with a strict inequality, so same-instant entries are never
selected and the capacity bound fails. -/
theorem resultCache_capacity_counterexample :
    (runPuts (⟨⟨[0]⟩, []⟩ : CacheSt Nat) capOps).entries.length = 101
    ∧ CACHE_MAX_SIZE = 100 := by
  decide

/-! ## Claim C9: the issue parser -/

/-- C9 (amended): the parser recognizes *five* severity classes —
`critical`, `error`, `warning`, `info`, `suggestion` — so every issue's
level is drawn from that five-element set; and because the red-circle
emoji is an alias of both the critical and the error patterns, a single
`🔴` marker line yields one issue per matching class (two in total), not
at most one. -/
theorem issueParser_levels_amended :
    (∀ (agent : Agent) (output : List Char), ∀ i ∈ parseAgentOutput agent output,
      i.level ∈ ["critical".data, "error".data, "warning".data, "info".data,
        "suggestion".data])
    ∧ ((parseAgentOutput agentXC "🔴: x".data).map (fun i => (i.level, i.message)))
        = [("critical".data, "x".data), ("error".data, "x".data)] := by
  constructor
  · intro agent output i hi
    simp only [parseAgentOutput] at hi
    have hi2 := List.mem_of_mem_take hi
    rw [List.mem_flatten] at hi2
    obtain ⟨l, hl, hil⟩ := hi2
    rw [List.mem_map] at hl
    obtain ⟨lp, hlp, rfl⟩ := hl
    rw [List.mem_map] at hil
    obtain ⟨msg, _, rfl⟩ := hil
    have hlev : (mkIssue agent lp.1 msg).level = lp.1 := rfl
    rw [hlev]
    simp only [levelPatterns, List.mem_cons, List.not_mem_nil, or_false] at hlp
    rcases hlp with h | h | h | h | h
    all_goals rw [h]
    all_goals simp
  · decide

/-- C9 witness: the level-membership conjunct at a concretely parsed
issue. -/
theorem issueParser_levels_amended_witness :
    (mkIssue agentXC "error".data "z".data).level
      ∈ ["critical".data, "error".data, "warning".data, "info".data,
        "suggestion".data] :=
  issueParser_levels_amended.1 agentXC "ERROR: z\n".data
    (mkIssue agentXC "error".data "z".data) (by decide)

/-- C9 counterexample: a `CRITICAL:` line yields an issue whose level is
`critical`, which is not in the claimed four-element set
`{error, warning, info, suggestion}`. -/
theorem issueParser_four_levels_counterexample :
    ((parseAgentOutput agentXC "CRITICAL: memory leak\n".data).map (fun i => i.level))
        = ["critical".data]
    ∧ "critical".data ∉ ["error".data, "warning".data, "info".data,
        "suggestion".data] := by
  decide

end SmartReview
